import Mathlib

/-!
# Verification of the routing-graph engine (network_simulator.py)

This file is a shallow embedding of the routing engine of the repository:
the `Network` class with its topology-mutation operations, the negative-edge
check, Dijkstra, Bellman-Ford, the whole-network Bellman-Ford refresh and the
routing-table formatter, together with proofs of the specified properties.

Modelling conventions:
* Python `dict`s are association lists (`List (String × _)`) with Python's
  insertion-order semantics: assignment to a present key updates the value in
  place, assignment to an absent key appends, `del` removes the entry.
* Python's `float('inf')` sentinel cost is the `ECost.inf` constructor;
  finite costs are `ECost.fin` of a mathematical integer (Python ints are
  unbounded, so no modular arithmetic is involved).
* The `heapq` priority queue is modelled as a list kept sorted by the
  lexicographic order on the pushed `(cost, router_name, path)` tuples, which
  is exactly the order `heapq` pops them in (all tuples in the queue are
  distinct, as proved below, so the pop order is fully determined).
* The unbounded `while pq:` loop of `dijkstra` and the unbounded predecessor
  walk of `bellman_ford` are given explicit iteration budgets ("fuel") that
  are proved never to bind on the states on which the Python code runs them.
* `print` diagnostics are ignored; only return values and state changes are
  modelled.
-/

/-- Cost values as stored by the Python code: an unbounded integer or the
`float('inf')` sentinel used for "unreachable". -/
inductive ECost where
  | fin : Int → ECost
  | inf : ECost
deriving DecidableEq

namespace ECost

/-- Strict order matching Python's `<` between an int/`inf` and an int/`inf`. -/
protected def Lt : ECost → ECost → Prop
  | fin a, fin b => a < b
  | fin _, inf => True
  | inf, _ => False

/-- Non-strict order on costs (only used in specifications). -/
protected def Le : ECost → ECost → Prop
  | fin a, fin b => a ≤ b
  | _, inf => True
  | inf, fin _ => False

instance : LT ECost := ⟨ECost.Lt⟩
instance : LE ECost := ⟨ECost.Le⟩

instance : DecidableRel (· < · : ECost → ECost → Prop)
  | fin x, fin y => decidable_of_iff (x < y) Iff.rfl
  | fin _, inf => Decidable.isTrue trivial
  | inf, fin _ => Decidable.isFalse id
  | inf, inf => Decidable.isFalse id

instance : DecidableRel (· ≤ · : ECost → ECost → Prop)
  | fin x, fin y => decidable_of_iff (x ≤ y) Iff.rfl
  | fin _, inf => Decidable.isTrue trivial
  | inf, fin _ => Decidable.isFalse id
  | inf, inf => Decidable.isTrue trivial

@[simp] theorem fin_lt_fin {a b : Int} : (fin a < fin b) ↔ a < b := Iff.rfl
@[simp] theorem fin_le_fin {a b : Int} : (fin a ≤ fin b) ↔ a ≤ b := Iff.rfl
@[simp] theorem fin_lt_inf {a : Int} : (fin a < inf) := trivial
@[simp] theorem not_inf_lt {a : ECost} : ¬ (inf < a) := by cases a <;> exact id
@[simp] theorem le_inf {a : ECost} : a ≤ inf := by cases a <;> trivial
@[simp] theorem not_inf_le_fin {a : Int} : ¬ (inf ≤ fin a) := id

theorem le_refl (a : ECost) : a ≤ a := by cases a <;> simp

theorem le_trans {a b c : ECost} (h₁ : a ≤ b) (h₂ : b ≤ c) : a ≤ c := by
  cases a <;> cases b <;> cases c <;> simp_all
  all_goals omega

theorem lt_of_le_of_lt {a b c : ECost} (h₁ : a ≤ b) (h₂ : b < c) : a < c := by
  cases a <;> cases b <;> cases c <;> simp_all
  all_goals omega

theorem le_of_lt {a b : ECost} (h : a < b) : a ≤ b := by
  cases a <;> cases b <;> simp_all
  all_goals omega

theorem le_of_not_lt {a b : ECost} (h : ¬ a < b) : b ≤ a := by
  cases a <;> cases b <;> simp_all
  all_goals omega

theorem not_lt_of_le {a b : ECost} (h : a ≤ b) : ¬ b < a := by
  cases a <;> cases b <;> simp_all
  all_goals omega

theorem lt_irrefl {a : ECost} (h : a < a) : False := by
  cases a <;> simp_all
  all_goals omega

theorem le_antisymm {a b : ECost} (h₁ : a ≤ b) (h₂ : b ≤ a) : a = b := by
  cases a <;> cases b <;> simp_all
  all_goals omega

end ECost

/-! ## Python dictionaries as association lists -/

/-- Lookup in a Python dict (keys are unique, so first match is the match). -/
def dlookup {α : Type} (k : String) : List (String × α) → Option α
  | [] => none
  | e :: rest => if e.1 = k then some e.2 else dlookup k rest

/-- Assignment `d[k] = v` in a Python dict: update in place if the key is
present (keeping its position), append otherwise. -/
def dinsert {α : Type} (k : String) (v : α) : List (String × α) → List (String × α)
  | [] => [(k, v)]
  | e :: rest => if e.1 = k then (e.1, v) :: rest else e :: dinsert k v rest

/-- Deletion `del d[k]` in a Python dict (removes the unique entry for `k`). -/
def derase {α : Type} (k : String) : List (String × α) → List (String × α)
  | [] => []
  | e :: rest => if e.1 = k then rest else e :: derase k rest

/-- The key list of a dict, in insertion order. -/
def dkeys {α : Type} (l : List (String × α)) : List String := l.map Prod.fst

@[simp] theorem dlookup_nil {α : Type} (k : String) : dlookup (α := α) k [] = none := rfl

theorem dlookup_cons {α : Type} (k : String) (e : String × α) (l : List (String × α)) :
    dlookup k (e :: l) = if e.1 = k then some e.2 else dlookup k l := rfl

theorem dlookup_isSome_iff {α : Type} (k : String) (l : List (String × α)) :
    (dlookup k l).isSome = true ↔ k ∈ dkeys l := by
  induction l with
  | nil => simp [dkeys]
  | cons e rest ih =>
    rw [dlookup_cons]
    by_cases h : e.1 = k
    · simp [h, dkeys]
    · simp only [if_neg h, dkeys, List.map_cons, List.mem_cons, ih, dkeys]
      constructor
      · intro hm
        exact Or.inr hm
      · intro hm
        rcases hm with hm | hm
        · exact absurd hm.symm h
        · exact hm

theorem dlookup_eq_none_iff {α : Type} (k : String) (l : List (String × α)) :
    dlookup k l = none ↔ k ∉ dkeys l := by
  rw [← dlookup_isSome_iff]
  cases dlookup k l <;> simp

theorem dlookup_mem {α : Type} {k : String} {v : α} {l : List (String × α)}
    (h : dlookup k l = some v) : (k, v) ∈ l := by
  induction l with
  | nil => simp at h
  | cons e rest ih =>
    obtain ⟨a, b⟩ := e
    rw [dlookup_cons] at h
    by_cases he : a = k
    · simp only at h
      rw [if_pos he] at h
      injection h with h
      subst he
      subst h
      exact List.mem_cons_self _ _
    · simp only at h
      rw [if_neg he] at h
      exact List.mem_cons_of_mem _ (ih h)

theorem dkeys_dinsert {α : Type} (k : String) (v : α) (l : List (String × α)) :
    dkeys (dinsert k v l) = if k ∈ dkeys l then dkeys l else dkeys l ++ [k] := by
  induction l with
  | nil => simp [dinsert, dkeys]
  | cons e rest ih =>
    by_cases h : e.1 = k
    · simp [dinsert, h, dkeys]
    · simp only [dinsert, if_neg h, dkeys, List.map_cons] at ih ⊢
      rw [ih]
      by_cases hm : k ∈ List.map Prod.fst rest
      · rw [if_pos hm, if_pos (List.mem_cons_of_mem _ hm)]
      · rw [if_neg hm, if_neg, List.cons_append]
        intro hc
        rcases List.mem_cons.mp hc with hc | hc
        · exact h hc.symm
        · exact hm hc

theorem dlookup_dinsert {α : Type} (k k' : String) (v : α) (l : List (String × α)) :
    dlookup k' (dinsert k v l) = if k = k' then some v else dlookup k' l := by
  induction l with
  | nil => simp [dinsert, dlookup_cons]
  | cons e rest ih =>
    by_cases h : e.1 = k
    · rw [dinsert, if_pos h, dlookup_cons, dlookup_cons]
      by_cases h' : e.1 = k'
      · rw [if_pos h', if_pos h', if_pos (show k = k' from h ▸ h')]
      · rw [if_neg h', if_neg h',
          if_neg (show ¬ k = k' from fun hc => h' (h.trans hc))]
    · rw [dinsert, if_neg h, dlookup_cons, dlookup_cons]
      by_cases h' : e.1 = k'
      · rw [if_pos h', if_pos h',
          if_neg (show ¬ k = k' from fun hc => h (hc.symm ▸ h'))]
      · rw [if_neg h', if_neg h', ih]

theorem dkeys_derase {α : Type} (k : String) (l : List (String × α)) :
    dkeys (derase k l) = (dkeys l).eraseP (fun x => k == x) := by
  induction l with
  | nil => simp [derase, dkeys]
  | cons e rest ih =>
    by_cases h : e.1 = k
    · simp [derase, h, dkeys, List.eraseP_cons]
    · have : ¬ (k == e.1) = true := by
        simp only [beq_iff_eq]
        exact fun hc => h hc.symm
      simp only [derase, if_neg h, dkeys, List.map_cons, List.eraseP_cons, this,
        Bool.false_eq_true, if_false] at ih ⊢
      rw [ih]
      rfl

theorem dlookup_derase {α : Type} (k k' : String) (l : List (String × α))
    (hnd : (dkeys l).Nodup) :
    dlookup k' (derase k l) = if k = k' then none else dlookup k' l := by
  induction l with
  | nil => simp [derase]
  | cons e rest ih =>
    simp only [dkeys, List.map_cons, List.nodup_cons] at hnd
    by_cases h : e.1 = k
    · by_cases h' : k = k'
      · subst h'
        rw [if_pos rfl]
        simp only [derase, if_pos h]
        rw [dlookup_eq_none_iff]
        exact h ▸ hnd.1
      · rw [if_neg h', derase, if_pos h, dlookup_cons,
          if_neg (show ¬ e.1 = k' from fun hc => h' (h ▸ hc))]
    · by_cases h' : e.1 = k'
      · have hkk : ¬ k = k' := fun hc => h (hc ▸ h')
        rw [if_neg hkk, derase, if_neg h, dlookup_cons, if_pos h', dlookup_cons, if_pos h']
      · rw [derase, if_neg h, dlookup_cons, if_neg h', ih hnd.2, dlookup_cons, if_neg h']

theorem dkeys_derase_nodup {α : Type} (k : String) (l : List (String × α))
    (hnd : (dkeys l).Nodup) : (dkeys (derase k l)).Nodup := by
  rw [dkeys_derase]
  exact List.Nodup.eraseP _ hnd

theorem dkeys_dinsert_nodup {α : Type} (k : String) (v : α) (l : List (String × α))
    (hnd : (dkeys l).Nodup) : (dkeys (dinsert k v l)).Nodup := by
  rw [dkeys_dinsert]
  split
  · exact hnd
  · next h => simp [List.nodup_append, hnd, h]

theorem mem_derase_of_mem {α : Type} {e : String × α} {k : String} {l : List (String × α)}
    (h : e ∈ derase k l) : e ∈ l := by
  induction l with
  | nil => simp [derase] at h
  | cons e' rest ih =>
    simp only [derase] at h
    split at h
    · exact List.mem_cons_of_mem _ h
    · rcases List.mem_cons.mp h with h | h
      · exact h ▸ List.mem_cons_self _ _
      · exact List.mem_cons_of_mem _ (ih h)

theorem mem_dinsert {α : Type} {e : String × α} {k : String} {v : α} {l : List (String × α)}
    (h : e ∈ dinsert k v l) : e ∈ l ∨ e.2 = v := by
  induction l with
  | nil =>
    simp only [dinsert, List.mem_singleton] at h
    right
    rw [h]
  | cons e' rest ih =>
    simp only [dinsert] at h
    split at h
    · rcases List.mem_cons.mp h with h | h
      · right; rw [h]
      · left; exact List.mem_cons_of_mem _ h
    · rcases List.mem_cons.mp h with h | h
      · left; exact h ▸ List.mem_cons_self _ _
      · rcases ih h with h | h
        · left; exact List.mem_cons_of_mem _ h
        · right; exact h

/-! ## The Network class: state and topology mutation -/

/-- A routing table as stored on a `Router` object:
destination name to (next hop or None, cost). -/
abbrev RTable := List (String × (Option String × ECost))

/-- The `Network` class state: `routers` maps each router name to its
routing table (the only other `Router` field is its name, which is the key),
`adjacency_list` maps each router name to its neighbor-to-cost dict. -/
structure Network where
  routers : List (String × RTable)
  adjacency_list : List (String × List (String × Int))
deriving DecidableEq

/-- A freshly constructed `Network()`: no routers, no links. -/
def Network.empty : Network := ⟨[], []⟩

/-- Parsing performed by Python's `int(...)` on the (stripped) command-line
cost string: an optional sign followed by a nonempty digit string, single
underscores allowed between digits. Returns `none` when `int` raises
`ValueError`. -/
def py_digits_go : List Char → Nat → Option Nat
  | [], acc => some acc
  | '_' :: c :: cs, acc =>
      if c.isDigit then py_digits_go cs (acc * 10 + (c.toNat - 48)) else none
  | c :: cs, acc =>
      if c.isDigit then py_digits_go cs (acc * 10 + (c.toNat - 48)) else none

/-- Unsigned part of `int(...)` parsing: must begin with a digit. -/
def py_unsigned : List Char → Option Nat
  | [] => none
  | c :: cs => if c.isDigit then py_digits_go (c :: cs) 0 else none

/-- Python `int(s)` for a base-10 string: strip whitespace, optional sign,
digits. -/
def py_int_of_string (s : String) : Option Int :=
  let cs := ((s.toList.dropWhile Char.isWhitespace).reverse.dropWhile
    Char.isWhitespace).reverse
  match cs with
  | '+' :: rest => (py_unsigned rest).map Int.ofNat
  | '-' :: rest => (py_unsigned rest).map (fun n => -(n : Int))
  | _ => (py_unsigned cs).map Int.ofNat

/-- The method `Network.add_router`: fails when the name is already present,
otherwise stores a fresh `Router` (whose table is the self entry) and an
empty adjacency entry. Returns (success flag, new state). -/
def add_router (name : String) (net : Network) : Bool × Network :=
  if (dlookup name net.routers).isNone then
    (true, { routers := dinsert name [(name, (some name, ECost.fin 0))] net.routers,
             adjacency_list := dinsert name [] net.adjacency_list })
  else
    (false, net)

/-- The method `Network.remove_router`: fails when absent; otherwise deletes
the router, its adjacency entry, and every link pointing to it from the
remaining adjacency entries. -/
def remove_router (router_name : String) (net : Network) : Bool × Network :=
  if (dlookup router_name net.routers).isSome then
    (true, { routers := derase router_name net.routers,
             adjacency_list := (derase router_name net.adjacency_list).map
               (fun e => (e.1, derase router_name e.2)) })
  else
    (false, net)

/-- The method `Network.add_link`: both endpoints must be known routers and
the cost string must parse as an integer; on success the directed link
`router1 -> router2` is created or its cost overwritten. -/
def add_link (router1_name router2_name : String) (cost : String) (net : Network) :
    Bool × Network :=
  if (dlookup router1_name net.routers).isSome ∧
      (dlookup router2_name net.routers).isSome then
    match py_int_of_string cost with
    | none => (false, net)
    | some c =>
      let nbrs := (dlookup router1_name net.adjacency_list).getD []
      (true, { net with
        adjacency_list := dinsert router1_name (dinsert router2_name c nbrs) net.adjacency_list })
  else
    (false, net)

/-- The method `Network.remove_link`: the directed link `router1 -> router2`
must be stored; on success it is deleted. -/
def remove_link (router1_name router2_name : String) (net : Network) : Bool × Network :=
  match dlookup router1_name net.adjacency_list with
  | none => (false, net)
  | some nbrs =>
    if (dlookup router2_name nbrs).isSome then
      (true, { net with
        adjacency_list := dinsert router1_name (derase router2_name nbrs) net.adjacency_list })
    else
      (false, net)

/-- The method `Network.has_negative_edges`: scans every stored link weight. -/
def has_negative_edges (net : Network) : Bool :=
  net.adjacency_list.any (fun e => e.2.any (fun n => decide (n.2 < 0)))

/-- Wellformedness of a `Network` value, maintained by every operation of the
class: the two dicts have identical key sequences without duplicates, each
neighbor dict has no duplicate keys, and every stored neighbor is a known
router. Python relies on this silently (a violation would raise `KeyError`). -/
structure NetWf (net : Network) : Prop where
  routers_nodup : (dkeys net.routers).Nodup
  adj_keys : dkeys net.adjacency_list = dkeys net.routers
  nbr_nodup : ∀ e ∈ net.adjacency_list, (dkeys e.2).Nodup
  nbr_mem : ∀ e ∈ net.adjacency_list, ∀ n ∈ e.2, (dlookup n.1 net.routers).isSome

/-- Single mutation steps on the topology, with arbitrary arguments
(failing calls are steps too; they leave the state unchanged). -/
inductive NetStep : Network → Network → Prop where
  | add_router_step (name : String) (net : Network) :
      NetStep net (add_router name net).2
  | remove_router_step (name : String) (net : Network) :
      NetStep net (remove_router name net).2
  | add_link_step (u v cost : String) (net : Network) :
      NetStep net (add_link u v cost net).2
  | remove_link_step (u v : String) (net : Network) :
      NetStep net (remove_link u v net).2

/-- States reachable from a fresh `Network()` by mutation calls. -/
inductive NetReachable : Network → Prop where
  | init : NetReachable Network.empty
  | step {net net' : Network} : NetReachable net → NetStep net net' → NetReachable net'

/-! ## Preservation of wellformedness by the mutation operations -/

theorem mem_dinsert_key {α : Type} {e : String × α} {k : String} {v : α}
    {l : List (String × α)} (h : e ∈ dinsert k v l) : e ∈ l ∨ e.1 = k := by
  induction l with
  | nil =>
    simp only [dinsert, List.mem_singleton] at h
    right
    rw [h]
  | cons e' rest ih =>
    simp only [dinsert] at h
    split at h
    · next heq =>
      rcases List.mem_cons.mp h with h | h
      · right; rw [h]; exact heq
      · left; exact List.mem_cons_of_mem _ h
    · rcases List.mem_cons.mp h with h | h
      · left; exact h ▸ List.mem_cons_self _ _
      · rcases ih h with h | h
        · left; exact List.mem_cons_of_mem _ h
        · right; exact h

theorem mem_derase_ne {α : Type} {e : String × α} {k : String} {l : List (String × α)}
    (hnd : (dkeys l).Nodup) (h : e ∈ derase k l) : e ∈ l ∧ e.1 ≠ k := by
  induction l with
  | nil => simp [derase] at h
  | cons e' rest ih =>
    simp only [dkeys, List.map_cons, List.nodup_cons] at hnd
    simp only [derase] at h
    split at h
    · next heq =>
      refine ⟨List.mem_cons_of_mem _ h, fun hc => ?_⟩
      exact hnd.1 (heq ▸ hc ▸ List.mem_map_of_mem Prod.fst h)
    · next hne =>
      rcases List.mem_cons.mp h with h | h
      · exact ⟨h ▸ List.mem_cons_self _ _, h ▸ hne⟩
      · obtain ⟨h1, h2⟩ := ih hnd.2 h
        exact ⟨List.mem_cons_of_mem _ h1, h2⟩

theorem dkeys_map_val {α β : Type} (f : String × α → β) (l : List (String × α)) :
    dkeys (l.map (fun e => (e.1, f e))) = dkeys l := by
  induction l with
  | nil => rfl
  | cons e rest ih => simp only [dkeys, List.map_cons] at ih ⊢; rw [ih]

theorem dkeys_map_pair {α : Type} (f : String → α) (l : List String) :
    dkeys (l.map (fun r => (r, f r))) = l := by
  induction l with
  | nil => rfl
  | cons a rest ih => simp only [dkeys, List.map_cons, List.map_map] at ih ⊢; rw [ih]

theorem wf_empty : NetWf Network.empty := by
  constructor <;> simp [Network.empty, dkeys]

theorem wf_add_router (name : String) {net : Network} (hwf : NetWf net) :
    NetWf (add_router name net).2 := by
  unfold add_router
  by_cases h : (dlookup name net.routers).isNone
  · rw [if_pos h]
    dsimp only
    have hnotmem : name ∉ dkeys net.routers := by
      rw [← dlookup_eq_none_iff]
      exact Option.isNone_iff_eq_none.mp h
    have hnotadj : name ∉ dkeys net.adjacency_list := hwf.adj_keys ▸ hnotmem
    constructor
    · rw [dkeys_dinsert, if_neg hnotmem]
      simp [List.nodup_append, hwf.routers_nodup, hnotmem]
    · show dkeys (dinsert name [] net.adjacency_list) =
        dkeys (dinsert name [(name, (some name, ECost.fin 0))] net.routers)
      rw [dkeys_dinsert, dkeys_dinsert, if_neg hnotadj, if_neg hnotmem, hwf.adj_keys]
    · intro e he
      rcases mem_dinsert he with he | he
      · exact hwf.nbr_nodup e he
      · rw [he]; simp [dkeys]
    · intro e he n hn
      rcases mem_dinsert he with he | he
      · have := hwf.nbr_mem e he n hn
        rw [dlookup_dinsert]
        split
        · simp
        · exact this
      · rw [he] at hn; simp at hn
  · rw [if_neg h]
    exact hwf

theorem wf_remove_router (name : String) {net : Network} (hwf : NetWf net) :
    NetWf (remove_router name net).2 := by
  unfold remove_router
  by_cases h : (dlookup name net.routers).isSome
  · rw [if_pos h]
    dsimp only
    have hadjnodup : (dkeys net.adjacency_list).Nodup := by
      rw [hwf.adj_keys]; exact hwf.routers_nodup
    constructor
    · exact dkeys_derase_nodup _ _ hwf.routers_nodup
    · rw [dkeys_map_val (fun e => derase name e.2), dkeys_derase, dkeys_derase,
        hwf.adj_keys]
    · intro e he
      rcases List.mem_map.mp he with ⟨e', he', rfl⟩
      exact dkeys_derase_nodup _ _
        (hwf.nbr_nodup e' (mem_derase_ne hadjnodup he').1)
    · intro e he n hn
      rcases List.mem_map.mp he with ⟨e', he', rfl⟩
      obtain ⟨he'mem, _⟩ := mem_derase_ne hadjnodup he'
      obtain ⟨hnmem, hne⟩ := mem_derase_ne (hwf.nbr_nodup e' he'mem) hn
      have := hwf.nbr_mem e' he'mem n hnmem
      rw [dlookup_derase _ _ _ hwf.routers_nodup, if_neg (fun hc => hne hc.symm)]
      exact this
  · rw [if_neg h]
    exact hwf

theorem wf_add_link (u v cost : String) {net : Network} (hwf : NetWf net) :
    NetWf (add_link u v cost net).2 := by
  unfold add_link
  by_cases h : (dlookup u net.routers).isSome ∧ (dlookup v net.routers).isSome
  · rw [if_pos h]
    cases hp : py_int_of_string cost with
    | none => exact hwf
    | some c =>
      dsimp only
      have humem : u ∈ dkeys net.routers := (dlookup_isSome_iff _ _).mp h.1
      have huadj : u ∈ dkeys net.adjacency_list := hwf.adj_keys ▸ humem
      have hnbrs : ∀ nbrs, dlookup u net.adjacency_list = some nbrs →
          (u, nbrs) ∈ net.adjacency_list := fun nbrs hl => dlookup_mem hl
      obtain ⟨nbrs, hnl⟩ := Option.isSome_iff_exists.mp
        ((dlookup_isSome_iff u net.adjacency_list).mpr huadj)
      constructor
      · exact hwf.routers_nodup
      · simp only [hnl, Option.getD_some]
        rw [dkeys_dinsert, if_pos huadj, hwf.adj_keys]
      · intro e he
        simp only [hnl, Option.getD_some] at he
        rcases mem_dinsert he with he | he
        · exact hwf.nbr_nodup e he
        · rw [he]
          exact dkeys_dinsert_nodup _ _ _ (hwf.nbr_nodup _ (hnbrs nbrs hnl))
      · intro e he n hn
        simp only [hnl, Option.getD_some] at he
        rcases mem_dinsert he with he | he
        · exact hwf.nbr_mem e he n hn
        · rw [he] at hn
          rcases mem_dinsert_key hn with hn | hn
          · exact hwf.nbr_mem _ (hnbrs nbrs hnl) n hn
          · rw [hn]; exact h.2
  · rw [if_neg h]
    exact hwf

theorem wf_remove_link (u v : String) {net : Network} (hwf : NetWf net) :
    NetWf (remove_link u v net).2 := by
  unfold remove_link
  cases hl : dlookup u net.adjacency_list with
  | none => exact hwf
  | some nbrs =>
    dsimp only
    by_cases h : (dlookup v nbrs).isSome
    · rw [if_pos h]
      dsimp only
      have humem : (u, nbrs) ∈ net.adjacency_list := dlookup_mem hl
      have huadj : u ∈ dkeys net.adjacency_list :=
        (dlookup_isSome_iff _ _).mp (by rw [hl]; rfl)
      constructor
      · exact hwf.routers_nodup
      · rw [dkeys_dinsert, if_pos huadj, hwf.adj_keys]
      · intro e he
        rcases mem_dinsert he with he | he
        · exact hwf.nbr_nodup e he
        · rw [he]
          exact dkeys_derase_nodup _ _ (hwf.nbr_nodup _ humem)
      · intro e he n hn
        rcases mem_dinsert he with he | he
        · exact hwf.nbr_mem e he n hn
        · rw [he] at hn
          exact hwf.nbr_mem _ humem n (mem_derase_of_mem hn)
    · rw [if_neg h]
      exact hwf

theorem wf_step {net net' : Network} (hwf : NetWf net) (hstep : NetStep net net') :
    NetWf net' := by
  cases hstep with
  | add_router_step name net => exact wf_add_router name hwf
  | remove_router_step name net => exact wf_remove_router name hwf
  | add_link_step u v cost net => exact wf_add_link u v cost hwf
  | remove_link_step u v net => exact wf_remove_link u v hwf

theorem wf_reachable {net : Network} (h : NetReachable net) : NetWf net := by
  induction h with
  | init => exact wf_empty
  | step _ hstep ih => exact wf_step ih hstep

/-- Endpoint validity of every stored link: the source key of each adjacency
entry and every neighbor key inside it name currently existing routers. -/
def LinksValid (net : Network) : Prop :=
  ∀ e ∈ net.adjacency_list, (dlookup e.1 net.routers).isSome ∧
    ∀ n ∈ e.2, (dlookup n.1 net.routers).isSome

theorem linksValid_of_wf {net : Network} (hwf : NetWf net) : LinksValid net := by
  intro e he
  refine ⟨?_, hwf.nbr_mem e he⟩
  rw [dlookup_isSome_iff, ← hwf.adj_keys]
  exact List.mem_map_of_mem Prod.fst he

/-- Concrete reachable test topology: routers A, B and the link A -> B (3). -/
def netAB3 : Network :=
  (add_link "A" "B" "3" (add_router "B" (add_router "A" Network.empty).2).2).2

theorem netAB3_reachable : NetReachable netAB3 :=
  NetReachable.step
    (NetReachable.step
      (NetReachable.step NetReachable.init (NetStep.add_router_step "A" Network.empty))
      (NetStep.add_router_step "B" _))
    (NetStep.add_link_step "A" "B" "3" _)

/-- C5: in every topology state reachable through the mutation operations,
every stored link's endpoints (the adjacency key and every neighbor key) are
names of existing routers; and after a successful remove_router(X) on such a
state, no stored link references X as source or destination. -/
theorem C5_link_endpoints_exist :
    (∀ net : Network, NetReachable net → LinksValid net) ∧
    (∀ (x : String) (net net' : Network), NetReachable net →
      remove_router x net = (true, net') →
      ∀ e ∈ net'.adjacency_list, e.1 ≠ x ∧ ∀ n ∈ e.2, n.1 ≠ x) := by
  constructor
  · intro net hreach
    exact linksValid_of_wf (wf_reachable hreach)
  · intro x net net' hreach hrem e he
    have hwf := wf_reachable hreach
    have hadjnodup : (dkeys net.adjacency_list).Nodup := by
      rw [hwf.adj_keys]; exact hwf.routers_nodup
    unfold remove_router at hrem
    by_cases h : (dlookup x net.routers).isSome
    · rw [if_pos h] at hrem
      injection hrem with _ hnet
      subst hnet
      rcases List.mem_map.mp he with ⟨e', he', rfl⟩
      obtain ⟨he'mem, he'ne⟩ := mem_derase_ne hadjnodup he'
      refine ⟨he'ne, ?_⟩
      intro n hn
      exact (mem_derase_ne (hwf.nbr_nodup e' he'mem) hn).2
    · rw [if_neg h] at hrem
      injection hrem with hfalse _
      exact absurd hfalse (by simp)

theorem C5_link_endpoints_exist_witness :
    LinksValid netAB3 ∧
    ∀ e ∈ (remove_router "B" netAB3).2.adjacency_list,
      e.1 ≠ "B" ∧ ∀ n ∈ e.2, n.1 ≠ "B" := by
  refine ⟨C5_link_endpoints_exist.1 netAB3 netAB3_reachable, ?_⟩
  exact C5_link_endpoints_exist.2 "B" netAB3 (remove_router "B" netAB3).2
    netAB3_reachable (by decide)

/-- C7: each failing mutation call (duplicate add_router, absent
remove_router, add_link with a missing endpoint or an unparsable cost,
remove_link of a non-existent directed edge) returns the failure flag and
leaves the topology exactly unchanged. -/
theorem C7_failing_mutations_frame :
    (∀ (name : String) (net : Network), (dlookup name net.routers).isSome →
      add_router name net = (false, net)) ∧
    (∀ (name : String) (net : Network), dlookup name net.routers = none →
      remove_router name net = (false, net)) ∧
    (∀ (u v cost : String) (net : Network),
      (dlookup u net.routers).isNone ∨ (dlookup v net.routers).isNone ∨
        py_int_of_string cost = none →
      add_link u v cost net = (false, net)) ∧
    (∀ (u v : String) (net : Network),
      (dlookup u net.adjacency_list).bind (dlookup v) = none →
      remove_link u v net = (false, net)) := by
  refine ⟨?_, ?_, ?_, ?_⟩
  · intro name net h
    unfold add_router
    rw [if_neg]
    simp only [Option.isNone_iff_eq_none]
    intro hc
    rw [hc] at h
    exact absurd h (by simp)
  · intro name net h
    unfold remove_router
    rw [if_neg]
    simp [h]
  · intro u v cost net h
    unfold add_link
    by_cases hcond : (dlookup u net.routers).isSome ∧ (dlookup v net.routers).isSome
    · rw [if_pos hcond]
      have hp : py_int_of_string cost = none := by
        rcases h with h | h | h
        · exact absurd hcond.1 (by simp_all)
        · exact absurd hcond.2 (by simp_all)
        · exact h
      rw [hp]
    · rw [if_neg hcond]
  · intro u v net h
    unfold remove_link
    cases hl : dlookup u net.adjacency_list with
    | none => rfl
    | some nbrs =>
      rw [hl] at h
      dsimp only
      rw [if_neg]
      simp only [Option.some_bind] at h
      simp [h]

theorem C7_failing_mutations_frame_witness :
    add_router "A" netAB3 = (false, netAB3) ∧
    remove_router "Z" netAB3 = (false, netAB3) ∧
    add_link "A" "Q" "2" netAB3 = (false, netAB3) ∧
    add_link "A" "B" "2x" netAB3 = (false, netAB3) ∧
    remove_link "B" "A" netAB3 = (false, netAB3) :=
  ⟨C7_failing_mutations_frame.1 "A" netAB3 (by decide),
   C7_failing_mutations_frame.2.1 "Z" netAB3 (by decide),
   C7_failing_mutations_frame.2.2.1 "A" "Q" "2" netAB3 (Or.inr (Or.inl (by decide))),
   C7_failing_mutations_frame.2.2.1 "A" "B" "2x" netAB3 (Or.inr (Or.inr (by decide))),
   C7_failing_mutations_frame.2.2.2 "B" "A" netAB3 (by decide)⟩

/-! ## The priority queue of dijkstra -/

/-- An entry pushed on the `heapq` priority queue:
`(accumulated cost, router name, path so far)`. -/
abbrev QEntry := Int × String × List String

/-- Lexicographic comparison of Python lists of strings (`list.__lt__`
restricted to equal-type elements), in its non-strict form. -/
def py_list_le : List String → List String → Prop
  | [], _ => True
  | _ :: _, [] => False
  | a :: as, b :: bs => a < b ∨ (a = b ∧ py_list_le as bs)

instance py_list_le_dec : (l1 l2 : List String) → Decidable (py_list_le l1 l2)
  | [], _ => Decidable.isTrue trivial
  | _ :: _, [] => Decidable.isFalse id
  | a :: as, b :: bs =>
    have : Decidable (py_list_le as bs) := py_list_le_dec as bs
    decidable_of_iff (a < b ∨ (a = b ∧ py_list_le as bs)) Iff.rfl

/-- Lexicographic comparison of the queue tuples, exactly Python's tuple
order: cost first, then router name, then path. `heapq` pops the least
entry in this order. -/
def qle (a b : QEntry) : Prop :=
  a.1 < b.1 ∨ (a.1 = b.1 ∧ (a.2.1 < b.2.1 ∨ (a.2.1 = b.2.1 ∧ py_list_le a.2.2 b.2.2)))

instance : DecidableRel qle := fun a b =>
  decidable_of_iff
    (a.1 < b.1 ∨ (a.1 = b.1 ∧ (a.2.1 < b.2.1 ∨ (a.2.1 = b.2.1 ∧ py_list_le a.2.2 b.2.2))))
    Iff.rfl

theorem py_list_le_total : ∀ l1 l2 : List String, py_list_le l1 l2 ∨ py_list_le l2 l1
  | [], _ => Or.inl trivial
  | _ :: _, [] => Or.inr trivial
  | a :: as, b :: bs => by
    rcases lt_trichotomy a b with h | h | h
    · exact Or.inl (Or.inl h)
    · rcases py_list_le_total as bs with h' | h'
      · exact Or.inl (Or.inr ⟨h, h'⟩)
      · exact Or.inr (Or.inr ⟨h.symm, h'⟩)
    · exact Or.inr (Or.inl h)

theorem py_list_le_trans :
    ∀ {l1 l2 l3 : List String}, py_list_le l1 l2 → py_list_le l2 l3 → py_list_le l1 l3
  | [], _, _, _, _ => trivial
  | _ :: _, [], _, h, _ => absurd h id
  | _ :: _, _ :: _, [], _, h => absurd h id
  | a :: as, b :: bs, c :: cs, h1, h2 => by
    rcases h1 with h1 | ⟨rfl, h1⟩
    · rcases h2 with h2 | ⟨rfl, h2⟩
      · exact Or.inl (h1.trans h2)
      · exact Or.inl h1
    · rcases h2 with h2 | ⟨rfl, h2⟩
      · exact Or.inl h2
      · exact Or.inr ⟨rfl, py_list_le_trans h1 h2⟩

instance : IsTotal QEntry qle := by
  constructor
  intro a b
  unfold qle
  rcases lt_trichotomy a.1 b.1 with h | h | h
  · exact Or.inl (Or.inl h)
  · rcases lt_trichotomy a.2.1 b.2.1 with h' | h' | h'
    · exact Or.inl (Or.inr ⟨h, Or.inl h'⟩)
    · rcases py_list_le_total a.2.2 b.2.2 with h'' | h''
      · exact Or.inl (Or.inr ⟨h, Or.inr ⟨h', h''⟩⟩)
      · exact Or.inr (Or.inr ⟨h.symm, Or.inr ⟨h'.symm, h''⟩⟩)
    · exact Or.inr (Or.inr ⟨h.symm, Or.inl h'⟩)
  · exact Or.inr (Or.inl h)

instance : IsTrans QEntry qle := by
  constructor
  intro a b c h1 h2
  unfold qle at h1 h2 ⊢
  rcases h1 with h1 | ⟨he1, h1⟩
  · rcases h2 with h2 | ⟨he2, h2⟩
    · exact Or.inl (h1.trans h2)
    · exact Or.inl (he2 ▸ h1)
  · rcases h2 with h2 | ⟨he2, h2⟩
    · exact Or.inl (he1 ▸ h2)
    · refine Or.inr ⟨he1.trans he2, ?_⟩
      rcases h1 with h1 | ⟨hs1, h1⟩
      · rcases h2 with h2 | ⟨hs2, h2⟩
        · exact Or.inl (h1.trans h2)
        · exact Or.inl (hs2 ▸ h1)
      · rcases h2 with h2 | ⟨hs2, h2⟩
        · exact Or.inl (hs1 ▸ h2)
        · exact Or.inr ⟨hs1.trans hs2, py_list_le_trans h1 h2⟩

/-- Pushing on the heap: the queue is kept as the sorted-by-`qle` list of its
entries, so the head is exactly the entry `heappop` returns. -/
def qpush (e : QEntry) (pq : List QEntry) : List QEntry := List.orderedInsert qle e pq

/-! ## Dijkstra -/

/-- Total number of stored links (used only for the loop bound). -/
def adj_size (net : Network) : Nat := (net.adjacency_list.map (fun e => e.2.length)).sum

/-- The cost of the directed link `u -> v` if stored. -/
def link_cost (net : Network) (u v : String) : Option Int :=
  (dlookup u net.adjacency_list).bind (fun nbrs => dlookup v nbrs)

/-- The neighbor-exploration loop body of `dijkstra`: for each neighbor in
adjacency order, relax through the just-settled router (cost `c`, path
`path`), pushing improved entries and lowering `min_costs`. -/
def dijkstra_relax (c : Int) (path : List String) (nbrs : List (String × Int))
    (pq : List QEntry) (minC : String → ECost) : List QEntry × (String → ECost) :=
  nbrs.foldl
    (fun st n =>
      if ECost.fin (c + n.2) < st.2 n.1 then
        (qpush (c + n.2, n.1, path) st.1, Function.update st.2 n.1 (ECost.fin (c + n.2)))
      else st)
    (pq, minC)

/-- Next hop stored by dijkstra: the second node of the path when it has
more than one node, the start router itself otherwise. -/
def next_hop_of (start : String) (path : List String) : String :=
  match path with
  | _ :: second :: _ => second
  | _ => start

/-- The `while pq:` loop of `dijkstra`. State: fuel, priority queue,
`min_costs`, `shortest_paths`, and the source router's routing table (its
dict writes are modelled as function updates; the dict is materialised over
the router-key list when the algorithm returns). The fuel is an upper bound
on the number of iterations, proved never to bind when the graph has no
negative edges (the only situation in which the Python loop runs). -/
def dijkstra_loop (net : Network) (start : String) :
    Nat → List QEntry → (String → ECost) → (String → List String) →
    (String → Option String × ECost) →
    (String → List String) × (String → Option String × ECost)
  | 0, _, _, paths, table => (paths, table)
  | _ + 1, [], _, paths, table => (paths, table)
  | fuel + 1, e :: pq, minC, paths, table =>
    if minC e.2.1 < ECost.fin e.1 then
      dijkstra_loop net start fuel pq minC paths table
    else
      let path := e.2.2 ++ [e.2.1]
      let st := dijkstra_relax e.1 path ((dlookup e.2.1 net.adjacency_list).getD []) pq minC
      dijkstra_loop net start fuel st.1 st.2 (Function.update paths e.2.1 path)
        (Function.update table e.2.1 (some (next_hop_of start path), ECost.fin e.1))

/-- The method `Network.dijkstra`: returns `{}` when the source is unknown,
`None` when any negative edge exists anywhere, and otherwise the
shortest-path mapping, rewriting the source router's routing table. -/
def dijkstra (start : String) (net : Network) :
    Option (List (String × List String)) × Network :=
  if (dlookup start net.routers).isNone then (some [], net)
  else if has_negative_edges net then (none, net)
  else
    let names := dkeys net.routers
    let fuel := names.length * (adj_size net + 1) + 1
    let res := dijkstra_loop net start fuel [(0, start, [])]
      (fun r => if r = start then ECost.fin 0 else ECost.inf)
      (fun _ => [])
      (fun r => if r = start then (some start, ECost.fin 0) else (none, ECost.inf))
    (some (names.map (fun r => (r, res.1 r))),
     { net with routers := dinsert start (names.map (fun r => (r, res.2 r))) net.routers })

/-! ## Bellman-Ford -/

/-- The edge list `(u, v, weight)` built by `bellman_ford`, in adjacency
iteration order. -/
def network_edges (net : Network) : List (String × String × Int) :=
  net.adjacency_list.flatMap (fun e => e.2.map (fun n => (e.1, n.1, n.2)))

/-- One relaxation of a single edge over (`min_costs`, `predecessors`). -/
def bf_relax (st : (String → ECost) × (String → Option String))
    (e : String × String × Int) : (String → ECost) × (String → Option String) :=
  match st.1 e.1 with
  | ECost.inf => st
  | ECost.fin c =>
    if ECost.fin (c + e.2.2) < st.1 e.2.1 then
      (Function.update st.1 e.2.1 (ECost.fin (c + e.2.2)),
       Function.update st.2 e.2.1 (some e.1))
    else st

/-- Repeated full passes over the edge list (`num_routers - 1` of them). -/
def bf_passes (edges : List (String × String × Int)) :
    Nat → (String → ECost) × (String → Option String) →
    (String → ECost) × (String → Option String)
  | 0, st => st
  | n + 1, st => bf_passes edges n (edges.foldl bf_relax st)

/-- The negative-cycle detection pass: does any edge still relax? -/
def bf_detect (edges : List (String × String × Int)) (minC : String → ECost) : Bool :=
  edges.any (fun e => match minC e.1 with
    | ECost.inf => false
    | ECost.fin c => decide (ECost.fin (c + e.2.2) < minC e.2.1))

/-- The predecessor walk of the path reconstruction, with the defensive
cycle guard: prepend routers following `predecessors` until `None`, breaking
(after one final prepend) as soon as a router already collected reappears.
The fuel never binds: the collected routers stay distinct until a break. -/
def bf_reconstruct (pred : String → Option String) :
    Nat → Option String → List String → List String
  | 0, _, path => path
  | _ + 1, none, path => path
  | fuel + 1, some cur, path =>
    if cur ∈ path then cur :: path
    else bf_reconstruct pred fuel (pred cur) (cur :: path)

/-- Step 3 of `bellman_ford`: for every destination of finite cost,
reconstruct the path; keep it (and write the routing-table entry) only when
it starts at the source, with the special case writing the source's own
singleton entry. -/
def bf_finish (start : String) (minC : String → ECost) (pred : String → Option String)
    (fuel : Nat) :
    List String → (String → Option String × ECost) →
    List (String × List String) × (String → Option String × ECost)
  | [], table => ([], table)
  | dest :: rest, table =>
    match minC dest with
    | ECost.inf => bf_finish start minC pred fuel rest table
    | ECost.fin c =>
      let path := bf_reconstruct pred fuel (some dest) []
      if path.head? = some start then
        let next_hop := match path with
          | _ :: second :: _ => second
          | _ => dest
        let res := bf_finish start minC pred fuel rest
          (Function.update table dest (some next_hop, ECost.fin c))
        ((dest, path) :: res.1, res.2)
      else if dest = start then
        let res := bf_finish start minC pred fuel rest
          (Function.update table start (some start, ECost.fin 0))
        ((start, [start]) :: res.1, res.2)
      else
        bf_finish start minC pred fuel rest table

/-- Initial (`min_costs`, `predecessors`) state of `bellman_ford`. -/
def bf_init (start : String) : (String → ECost) × (String → Option String) :=
  (fun r => if r = start then ECost.fin 0 else ECost.inf, fun _ => none)

/-- The method `Network.bellman_ford`: `{}` when the source is unknown;
otherwise the source's routing table is reset, edges are relaxed
`num_routers - 1` times, a further improving edge signals a negative cycle
(`None`), and otherwise paths are reconstructed from the predecessors. -/
def bellman_ford (start : String) (net : Network) :
    Option (List (String × List String)) × Network :=
  if (dlookup start net.routers).isNone then (some [], net)
  else
    let names := dkeys net.routers
    let table0 : String → Option String × ECost :=
      fun r => if r = start then (some start, ECost.fin 0) else (none, ECost.inf)
    let edges := network_edges net
    let st := bf_passes edges (names.length - 1) (bf_init start)
    if bf_detect edges st.1 then
      (none,
       { net with routers := dinsert start (names.map (fun r => (r, table0 r))) net.routers })
    else
      let res := bf_finish start st.1 st.2 (names.length + 1) names table0
      (some res.1,
       { net with routers := dinsert start (names.map (fun r => (r, res.2 r))) net.routers })

/-- The per-source iteration of `update_all_routing_tables_bellman_ford`,
over the router names in dict order: stop with failure as soon as one
source's run returns the negative-cycle sentinel. -/
def bf_batch : List String → Network → Bool × Network
  | [], net => (true, net)
  | r :: rest, net =>
    match bellman_ford r net with
    | (none, net') => (false, net')
    | (some _, net') => bf_batch rest net'

/-- The method `Network.update_all_routing_tables_bellman_ford`
(`bellman_ford` never changes the router-key list, so iterating over the
initial key list is Python's iteration over `self.routers`). -/
def update_all_routing_tables_bellman_ford (net : Network) : Bool × Network :=
  bf_batch (dkeys net.routers) net

/-! ## Routing-table formatting -/

/-- Cost column text: `str(cost)`, with `inf` for `float('inf')`. -/
def format_cost : ECost → String
  | ECost.fin n => toString n
  | ECost.inf => "inf"

/-- Next-hop column text: the router name, or the `N/A` marker for `None`. -/
def format_next_hop : Option String → String
  | some h => h
  | none => "N/A"

/-- Python's `f"{s: <w}"`: left-justify by padding with spaces to width `w`. -/
def pad_left_just (w : Nat) (s : String) : String :=
  s ++ String.mk (List.replicate (w - s.length) ' ')

/-- One row of a routing table. -/
def render_row (dest : String) (v : Option String × ECost) : String :=
  pad_left_just 12 dest ++ "| " ++ pad_left_just 9 (format_next_hop v.1) ++ "| " ++
    format_cost v.2 ++ "\n"

/-- Python's `sorted` on a list of names (code-point lexicographic). -/
def sort_strings (l : List String) : List String :=
  l.mergeSort (fun a b => decide (a ≤ b))

/-- Python's `sorted(table.items())`: with the keys unique, tuple comparison
orders by destination name. -/
def sort_table (tbl : RTable) : RTable :=
  tbl.mergeSort (fun a b => decide (a.1 ≤ b.1))

/-- One router's block in the output of `get_routing_tables_str`. -/
def render_router_table (rname : String) (tbl : RTable) : String :=
  "\n======= Router: " ++ rname ++ " =======\n" ++
  "Destination | Next Hop | Cost\n" ++
  "---------------------------------\n" ++
  String.join ((sort_table tbl).map (fun e => render_row e.1 e.2))

/-- The method `Network.get_routing_tables_str`. -/
def get_routing_tables_str (net : Network) : String :=
  String.join ((sort_strings (dkeys net.routers)).map
    (fun rname => render_router_table rname ((dlookup rname net.routers).getD [])))

/-! ## Concrete test topologies from the specification scenarios -/

/-- Scenario topology of the spec: routers A,B,C,D with directed links
A->B(1), B->C(2), A->C(5), C->D(1). -/
def netScen : Network :=
  (add_link "C" "D" "1" (add_link "A" "C" "5" (add_link "B" "C" "2" (add_link "A" "B" "1"
    (add_router "D" (add_router "C" (add_router "B"
      (add_router "A" Network.empty).2).2).2).2).2).2).2).2

/-- Scenario topology with the negative cycle A->B(1), B->C(-3), C->A(1). -/
def netCyc : Network :=
  (add_link "C" "A" "1" (add_link "B" "C" "-3" (add_link "A" "B" "1"
    (add_router "C" (add_router "B" (add_router "A" Network.empty).2).2).2).2).2).2

/-- Scenario topology with a disconnected router E added. -/
def netScenE : Network := (add_router "E" netScen).2

/-- C2: dijkstra returns `{}` exactly when the source is unknown, the `None`
sentinel when the source exists and any link anywhere has negative cost, and
otherwise a computed mapping keyed by every router (hence nonempty, distinct
from both sentinels). -/
theorem C2_dijkstra_sentinels (net : Network) (s : String) :
    (dlookup s net.routers = none → dijkstra s net = (some [], net)) ∧
    ((dlookup s net.routers).isSome → has_negative_edges net = true →
      dijkstra s net = (none, net)) ∧
    ((dlookup s net.routers).isSome → has_negative_edges net = false →
      ∃ m, (dijkstra s net).1 = some m ∧ dkeys m = dkeys net.routers ∧ m ≠ []) := by
  refine ⟨?_, ?_, ?_⟩
  · intro h
    unfold dijkstra
    rw [if_pos (Option.isNone_iff_eq_none.mpr h)]
  · intro hs hneg
    unfold dijkstra
    rw [if_neg (by simp only [Option.isNone_iff_eq_none]; intro hc; rw [hc] at hs; simp at hs),
      if_pos hneg]
  · intro hs hneg
    unfold dijkstra
    rw [if_neg (by simp only [Option.isNone_iff_eq_none]; intro hc; rw [hc] at hs; simp at hs),
      if_neg (by rw [hneg]; exact Bool.false_ne_true)]
    refine ⟨_, rfl, ?_, ?_⟩
    · exact dkeys_map_pair _ _
    · intro hc
      have hmem : s ∈ dkeys net.routers := (dlookup_isSome_iff _ _).mp hs
      have : dkeys net.routers ≠ [] := fun h' => by rw [h'] at hmem; simp at hmem
      exact this (by simpa using congrArg (List.map Prod.fst) hc)

theorem C2_dijkstra_sentinels_witness :
    dijkstra "Z" netScen = (some [], netScen) ∧
    dijkstra "A" netCyc = (none, netCyc) ∧
    ∃ m, (dijkstra "A" netScen).1 = some m ∧ dkeys m = dkeys netScen.routers ∧ m ≠ [] :=
  ⟨(C2_dijkstra_sentinels netScen "Z").1 (by decide),
   (C2_dijkstra_sentinels netCyc "A").2.1 (by decide) (by decide),
   (C2_dijkstra_sentinels netScen "A").2.2 (by decide) (by decide)⟩

/-- C9: when bellman_ford returns the negative-cycle sentinel for an existing
source, the source router's table has already been overwritten with the reset
table (all destinations `(None, inf)` except the `(source, 0)` self entry),
while dijkstra's negative-edge refusal returns the state completely
unchanged. -/
theorem C9_failure_table_states :
    (∀ (net : Network) (s : String) (net' : Network),
      dijkstra s net = (none, net') → net' = net) ∧
    (∀ (net : Network) (s : String), (dlookup s net.routers).isSome →
      (bellman_ford s net).1 = none →
      (bellman_ford s net).2.routers =
        dinsert s ((dkeys net.routers).map
          (fun r => (r, if r = s then (some s, ECost.fin 0) else (none, ECost.inf))))
          net.routers) := by
  constructor
  · intro net s net' h
    unfold dijkstra at h
    by_cases h1 : (dlookup s net.routers).isNone
    · rw [if_pos h1] at h
      injection h with h
      simp at h
    · rw [if_neg h1] at h
      by_cases h2 : has_negative_edges net
      · rw [if_pos h2] at h
        injection h with _ h
        exact h.symm
      · rw [if_neg h2] at h
        injection h with h
        simp at h
  · intro net s hs hnone
    unfold bellman_ford at hnone ⊢
    rw [if_neg (by simp only [Option.isNone_iff_eq_none]; intro hc; rw [hc] at hs; simp at hs)]
      at hnone ⊢
    dsimp only at hnone ⊢
    by_cases hd : bf_detect (network_edges net)
        (bf_passes (network_edges net) ((dkeys net.routers).length - 1) (bf_init s)).1
    · rw [if_pos hd]
    · rw [if_neg hd] at hnone
      simp at hnone

theorem C9_failure_table_states_witness :
    ((dijkstra "A" netCyc = (none, netCyc)) → netCyc = netCyc) ∧
    (bellman_ford "A" netCyc).2.routers =
      dinsert "A" ((dkeys netCyc.routers).map
        (fun r => (r, if r = "A" then (some "A", ECost.fin 0) else (none, ECost.inf))))
        netCyc.routers :=
  ⟨fun h => C9_failure_table_states.1 netCyc "A" netCyc h,
   C9_failure_table_states.2 netCyc "A" (by decide) (by decide)⟩

/-! ## The Bellman-Ford batch update -/

/-- Successful sequential batch runs: every listed source's bellman_ford run
returns a mapping (not the sentinel), threading the state. -/
inductive BatchOk : List String → Network → Network → Prop where
  | nil (net : Network) : BatchOk [] net net
  | cons {r : String} {rest : List String} {net net' net'' : Network}
      (m : List (String × List String)) :
      bellman_ford r net = (some m, net') → BatchOk rest net' net'' →
      BatchOk (r :: rest) net net''

theorem bf_batch_true_iff (l : List String) (net net' : Network) :
    bf_batch l net = (true, net') ↔ BatchOk l net net' := by
  induction l generalizing net with
  | nil =>
    constructor
    · intro h
      injection h with _ h
      exact h ▸ BatchOk.nil net
    · intro h
      cases h
      rfl
  | cons r rest ih =>
    constructor
    · intro h
      unfold bf_batch at h
      rcases hr : bellman_ford r net with ⟨res, netr⟩
      rw [hr] at h
      cases res with
      | none => exact absurd h (by simp)
      | some m =>
        dsimp only at h
        exact BatchOk.cons m hr ((ih _).mp h)
    · intro h
      cases h with
      | cons m hbf hrest =>
        unfold bf_batch
        rw [hbf]
        exact (ih _).mpr hrest

theorem bf_batch_append_fail {l1 : List String} {net net₁ net₂ : Network} {r : String}
    (l2 : List String) (hok : BatchOk l1 net net₁)
    (hfail : bellman_ford r net₁ = (none, net₂)) :
    bf_batch (l1 ++ r :: l2) net = (false, net₂) := by
  induction hok with
  | nil _ =>
    rw [List.nil_append]
    unfold bf_batch
    rw [hfail]
  | cons m hbf hrest ih =>
    rw [List.cons_append]
    unfold bf_batch
    rw [hbf]
    exact ih hfail

/-- C8: the batch update iterates over every router as source in dict order;
it returns True, with the threaded final state, exactly when every source's
run succeeds, and it stops with False as soon as one source's run detects a
negative cycle, returning the state in which all earlier sources' tables are
already recomputed (no rollback) and the failing source's table is reset. -/
theorem C8_batch_bellman_ford :
    (∀ (net net' : Network),
      update_all_routing_tables_bellman_ford net = (true, net') ↔
        BatchOk (dkeys net.routers) net net') ∧
    (∀ (net net₁ net₂ : Network) (l1 l2 : List String) (r : String),
      dkeys net.routers = l1 ++ r :: l2 →
      BatchOk l1 net net₁ → bellman_ford r net₁ = (none, net₂) →
      update_all_routing_tables_bellman_ford net = (false, net₂)) := by
  constructor
  · intro net net'
    exact bf_batch_true_iff (dkeys net.routers) net net'
  · intro net net₁ net₂ l1 l2 r hsplit hok hfail
    unfold update_all_routing_tables_bellman_ford
    rw [hsplit]
    exact bf_batch_append_fail l2 hok hfail

theorem C8_batch_bellman_ford_witness :
    (update_all_routing_tables_bellman_ford netScen = (true,
      (update_all_routing_tables_bellman_ford netScen).2) →
      BatchOk (dkeys netScen.routers) netScen
        (update_all_routing_tables_bellman_ford netScen).2) ∧
    update_all_routing_tables_bellman_ford netCyc = (false, (bellman_ford "A" netCyc).2) :=
  ⟨fun h => (C8_batch_bellman_ford.1 netScen _).mp h,
   C8_batch_bellman_ford.2 netCyc netCyc (bellman_ford "A" netCyc).2 [] ["B", "C"] "A"
     (by decide) (BatchOk.nil netCyc) (by decide)⟩

/-! ## Properties of the formatter -/

theorem dlookup_of_mem_nodup {α : Type} {k : String} {v : α} {l : List (String × α)}
    (hmem : (k, v) ∈ l) (hnd : (dkeys l).Nodup) : dlookup k l = some v := by
  induction l with
  | nil => simp at hmem
  | cons e rest ih =>
    simp only [dkeys, List.map_cons, List.nodup_cons] at hnd
    rcases List.mem_cons.mp hmem with h | h
    · rw [← h, dlookup_cons, if_pos rfl]
    · have hne : e.1 ≠ k := by
        intro hc
        exact hnd.1 (hc ▸ List.mem_map_of_mem Prod.fst h)
      rw [dlookup_cons, if_neg hne]
      exact ih h hnd.2

theorem dlookup_perm {α : Type} {l1 l2 : List (String × α)} (hperm : l1.Perm l2)
    (hnd : (dkeys l1).Nodup) (k : String) : dlookup k l1 = dlookup k l2 := by
  have hnd2 : (dkeys l2).Nodup := (hperm.map Prod.fst).nodup_iff.mp hnd
  cases h1 : dlookup k l1 with
  | none =>
    rw [dlookup_eq_none_iff] at h1
    rw [eq_comm, dlookup_eq_none_iff]
    exact fun hc => h1 ((hperm.map Prod.fst).mem_iff.mpr hc)
  | some v =>
    rw [eq_comm]
    exact dlookup_of_mem_nodup (hperm.subset (dlookup_mem h1)) hnd2

theorem sort_strings_sorted (l : List String) :
    List.Pairwise (fun a b : String => a ≤ b) (sort_strings l) := by
  unfold sort_strings
  apply List.Pairwise.imp (fun {a b} h => of_decide_eq_true h)
  apply List.sorted_mergeSort
  · intro a b c hab hbc
    exact decide_eq_true_eq.mpr
      (le_trans (of_decide_eq_true hab) (of_decide_eq_true hbc))
  · intro a b
    rcases le_total a b with h | h
    · simp [h]
    · simp [h]

theorem sort_strings_perm_eq {l1 l2 : List String} (hperm : l1.Perm l2) :
    sort_strings l1 = sort_strings l2 := by
  have hs1 : List.Sorted (fun a b : String => a ≤ b) (sort_strings l1) :=
    sort_strings_sorted l1
  have hs2 : List.Sorted (fun a b : String => a ≤ b) (sort_strings l2) :=
    sort_strings_sorted l2
  refine List.eq_of_perm_of_sorted ?_ hs1 hs2
  exact (List.mergeSort_perm l1 _).trans (hperm.trans (List.mergeSort_perm l2 _).symm)

theorem eq_of_perm_of_key_sorted {α : Type} :
    ∀ {l1 l2 : List (String × α)}, l1.Perm l2 →
    List.Pairwise (fun a b : String × α => a.1 ≤ b.1) l1 →
    List.Pairwise (fun a b : String × α => a.1 ≤ b.1) l2 →
    (dkeys l1).Nodup → l1 = l2
  | [], l2, hperm, _, _, _ => hperm.nil_eq
  | e :: l1', [], hperm, _, _, _ => by
    exact absurd hperm.symm.nil_eq (by simp)
  | e :: l1', e2 :: l2', hperm, hs1, hs2, hnd => by
    have hee2 : e2 = e := by
      rcases List.mem_cons.mp (hperm.symm.subset (List.mem_cons_self e2 l2')) with h | h
      · exact h
      · by_cases heq : e = e2
        · exact heq.symm
        · exfalso
          have hmem : e ∈ l2' := by
            rcases List.mem_cons.mp (hperm.subset (List.mem_cons_self e l1')) with h' | h'
            · exact absurd h' heq
            · exact h'
          have h12 : e.1 ≤ e2.1 := (List.pairwise_cons.mp hs1).1 e2 h
          have h21 : e2.1 ≤ e.1 := (List.pairwise_cons.mp hs2).1 e hmem
          have hkey : e.1 = e2.1 := le_antisymm h12 h21
          simp only [dkeys, List.map_cons, List.nodup_cons] at hnd
          exact hnd.1 (hkey ▸ List.mem_map_of_mem Prod.fst h)
    subst hee2
    have hperm' : l1'.Perm l2' := hperm.cons_inv
    simp only [dkeys, List.map_cons, List.nodup_cons] at hnd
    rw [eq_of_perm_of_key_sorted hperm' (List.pairwise_cons.mp hs1).2
      (List.pairwise_cons.mp hs2).2 hnd.2]

theorem sort_table_pairwise (tbl : RTable) :
    List.Pairwise (fun a b : String × (Option String × ECost) => a.1 ≤ b.1)
      (sort_table tbl) := by
  unfold sort_table
  apply List.Pairwise.imp (fun {a b} h => of_decide_eq_true h)
  apply List.sorted_mergeSort
  · intro a b c hab hbc
    exact decide_eq_true_eq.mpr
      (le_trans (of_decide_eq_true hab) (of_decide_eq_true hbc))
  · intro a b
    rcases le_total a.1 b.1 with h | h
    · simp [h]
    · simp [h]

theorem sort_table_perm_eq {tbl1 tbl2 : RTable} (hperm : tbl1.Perm tbl2)
    (hnd : (dkeys tbl1).Nodup) : sort_table tbl1 = sort_table tbl2 := by
  refine eq_of_perm_of_key_sorted ?_ (sort_table_pairwise tbl1) (sort_table_pairwise tbl2) ?_
  · exact (List.mergeSort_perm tbl1 _).trans (hperm.trans (List.mergeSort_perm tbl2 _).symm)
  · exact ((List.mergeSort_perm tbl1 _).map Prod.fst).nodup_iff.mpr hnd

/-- C10: the formatted read-back depends only on the contents of the routing
state, not on dict insertion order (so repeated calls on identical table
state give identical strings); routers appear sorted lexicographically and
each table's destinations are sorted lexicographically; a missing next hop
renders as "N/A" and an infinite cost as "inf". -/
theorem C10_formatting :
    (∀ net1 net2 : Network, (dkeys net1.routers).Nodup →
      net1.routers.Perm net2.routers →
      get_routing_tables_str net1 = get_routing_tables_str net2) ∧
    (∀ (r : String) (tbl1 tbl2 : RTable), (dkeys tbl1).Nodup → tbl1.Perm tbl2 →
      render_router_table r tbl1 = render_router_table r tbl2) ∧
    (∀ net : Network, List.Pairwise (fun a b : String => a ≤ b)
      (sort_strings (dkeys net.routers))) ∧
    (∀ tbl : RTable, List.Pairwise (fun a b : String × (Option String × ECost) => a.1 ≤ b.1)
      (sort_table tbl)) ∧
    format_next_hop none = "N/A" ∧ format_cost ECost.inf = "inf" := by
  refine ⟨?_, ?_, ?_, sort_table_pairwise, rfl, rfl⟩
  · intro net1 net2 hnd hperm
    unfold get_routing_tables_str
    have hpk : (dkeys net1.routers).Perm (dkeys net2.routers) := hperm.map Prod.fst
    rw [sort_strings_perm_eq hpk]
    congr 1
    apply List.map_congr_left
    intro r _
    rw [dlookup_perm hperm hnd r]
  · intro r tbl1 tbl2 hnd hperm
    unfold render_router_table
    rw [sort_table_perm_eq hperm hnd]
  · intro net
    exact sort_strings_sorted (dkeys net.routers)

theorem C10_formatting_witness :
    get_routing_tables_str ⟨[("B", [("B", (some "B", ECost.fin 0))]),
        ("A", [("A", (some "A", ECost.fin 0)), ("B", (none, ECost.inf))])], []⟩ =
      get_routing_tables_str ⟨[("A", [("A", (some "A", ECost.fin 0)), ("B", (none, ECost.inf))]),
        ("B", [("B", (some "B", ECost.fin 0))])], []⟩ ∧
    render_router_table "A" [("B", (none, ECost.inf)), ("A", (some "A", ECost.fin 0))] =
      render_router_table "A" [("A", (some "A", ECost.fin 0)), ("B", (none, ECost.inf))] :=
  ⟨C10_formatting.1 _ _ (by decide) (List.Perm.swap _ _ _),
   C10_formatting.2.1 "A" _ _ (by decide) (List.Perm.swap _ _ _)⟩

/-! ## Walks in the stored graph -/

/-- A directed walk through the stored links: `Walk net u t p c` says `p` is
a nonempty vertex sequence from `u` to `t` following stored links, of total
cost `c`. -/
inductive Walk (net : Network) : String → String → List String → Int → Prop where
  | single (u : String) : Walk net u u [u] 0
  | cons {u v t : String} {p : List String} {c : Int} (w : Int) :
      link_cost net u v = some w → Walk net v t p c → Walk net u t (u :: p) (w + c)

/-- Reachability along stored links. -/
def ReachableFrom (net : Network) (s t : String) : Prop := ∃ p c, Walk net s t p c

/-- The cost `c` is the minimum over all walks from `s` to `t` (and attained). -/
def IsMinCost (net : Network) (s t : String) (c : Int) : Prop :=
  (∃ p, Walk net s t p c) ∧ ∀ p c', Walk net s t p c' → c ≤ c'

/-- Some directed cycle of strictly negative total cost is reachable from `s`. -/
def HasNegCycleFrom (net : Network) (s : String) : Prop :=
  ∃ x p c q cq, Walk net s x p c ∧ Walk net x x q cq ∧ 2 ≤ q.length ∧ cq < 0

theorem Walk.head_eq {net : Network} {u t : String} {p : List String} {c : Int}
    (h : Walk net u t p c) : p.head? = some u := by
  cases h <;> rfl

theorem Walk.ne_nil {net : Network} {u t : String} {p : List String} {c : Int}
    (h : Walk net u t p c) : p ≠ [] := by
  cases h <;> simp

theorem Walk.last_eq {net : Network} {u t : String} {p : List String} {c : Int}
    (h : Walk net u t p c) : p.getLast? = some t := by
  induction h with
  | single u => rfl
  | cons w hl htail ih =>
    rw [List.getLast?_cons, ih]
    cases htail <;> simp

theorem Walk.snoc {net : Network} {u t v : String} {p : List String} {c : Int} {w : Int}
    (h : Walk net u t p c) (hl : link_cost net t v = some w) :
    Walk net u v (p ++ [v]) (c + w) := by
  induction h with
  | single x =>
    have h0 := Walk.cons w hl (Walk.single v)
    simpa using h0
  | cons w' hl' htail ih =>
    have h0 := Walk.cons w' hl' (ih hl)
    rw [List.cons_append, Int.add_assoc]
    exact h0

theorem Walk.append {net : Network} {u t r : String} {p q : List String} {c cq : Int}
    (h1 : Walk net u t p c) (h2 : Walk net t r q cq) :
    Walk net u r (p ++ q.tail) (c + cq) := by
  induction h1 with
  | single x =>
    have hx := h2.head_eq
    cases q with
    | nil => exact absurd h2.ne_nil (by simp)
    | cons a q' =>
      simp only [List.head?_cons, Option.some.injEq] at hx
      subst hx
      simpa using h2
  | cons w' hl' htail ih =>
    have h0 := Walk.cons w' hl' (ih h2)
    rw [List.cons_append, Int.add_assoc]
    exact h0

theorem Walk.cons_inv {net : Network} {u t a : String} {rest : List String} {c : Int}
    (h : Walk net u t (a :: rest) c) (hne : rest ≠ []) :
    u = a ∧ ∃ v w c', link_cost net u v = some w ∧ Walk net v t rest c' ∧ c = w + c' := by
  cases h with
  | single x => exact absurd rfl hne
  | cons w hl htail => exact ⟨rfl, _, w, _, hl, htail, rfl⟩

theorem Walk.split {net : Network} {t x : String} :
    ∀ {p₁ : List String} {s : String} {p₂ : List String} {c : Int},
    Walk net s t (p₁ ++ x :: p₂) c →
    ∃ c₁ c₂, Walk net s x (p₁ ++ [x]) c₁ ∧ Walk net x t (x :: p₂) c₂ ∧ c = c₁ + c₂ := by
  intro p₁
  induction p₁ with
  | nil =>
    intro s p₂ c h
    have hs : s = x := by
      have := h.head_eq
      simp at this
      exact this.symm
    subst hs
    exact ⟨0, c, Walk.single s, h, by omega⟩
  | cons a p₁' ih =>
    intro s p₂ c h
    rw [List.cons_append] at h
    obtain ⟨rfl, v, w, c', hl, htail, rfl⟩ := h.cons_inv (by simp)
    obtain ⟨c₁, c₂, hw1, hw2, rfl⟩ := ih htail
    refine ⟨w + c₁, c₂, ?_, hw2, by omega⟩
    rw [List.cons_append]
    exact Walk.cons w hl hw1

theorem link_cost_endpoints {net : Network} (hwf : NetWf net) {u v : String} {w : Int}
    (h : link_cost net u v = some w) :
    u ∈ dkeys net.routers ∧ v ∈ dkeys net.routers := by
  unfold link_cost at h
  cases hl : dlookup u net.adjacency_list with
  | none => rw [hl] at h; simp at h
  | some nbrs =>
    rw [hl] at h
    simp only [Option.some_bind] at h
    constructor
    · rw [← hwf.adj_keys]
      exact (dlookup_isSome_iff _ _).mp (by rw [hl]; rfl)
    · rw [← dlookup_isSome_iff]
      exact hwf.nbr_mem (u, nbrs) (dlookup_mem hl) (v, w) (dlookup_mem h)

theorem Walk.subset {net : Network} (hwf : NetWf net) {u t : String} {p : List String}
    {c : Int} (h : Walk net u t p c) (hu : u ∈ dkeys net.routers) :
    ∀ x ∈ p, x ∈ dkeys net.routers := by
  induction h with
  | single y => intro x hx; simp at hx; exact hx ▸ hu
  | cons w hl htail ih =>
    intro x hx
    rcases List.mem_cons.mp hx with hx | hx
    · exact hx ▸ hu
    · exact ih (link_cost_endpoints hwf hl).2 x hx

theorem no_neg_edges_nonneg {net : Network} (hne : has_negative_edges net = false)
    {u v : String} {w : Int} (h : link_cost net u v = some w) : 0 ≤ w := by
  unfold has_negative_edges at hne
  rw [List.any_eq_false] at hne
  unfold link_cost at h
  cases hl : dlookup u net.adjacency_list with
  | none => rw [hl] at h; simp at h
  | some nbrs =>
    rw [hl] at h
    simp only [Option.some_bind] at h
    have h1 := hne (u, nbrs) (dlookup_mem hl)
    rw [Bool.not_eq_true, List.any_eq_false] at h1
    have h2 := h1 (v, w) (dlookup_mem h)
    simp at h2
    omega

theorem walk_cost_nonneg {net : Network} (hne : has_negative_edges net = false)
    {u t : String} {p : List String} {c : Int} (h : Walk net u t p c) : 0 ≤ c := by
  induction h with
  | single _ => omega
  | cons w hl _ ih =>
    have := no_neg_edges_nonneg hne hl
    omega

theorem exists_dup_decomp {p : List String} (h : ¬ p.Nodup) :
    ∃ (x : String) (l1 l2 l3 : List String), p = l1 ++ x :: (l2 ++ x :: l3) := by
  induction p with
  | nil => exact absurd List.nodup_nil h
  | cons a p' ih =>
    by_cases ha : a ∈ p'
    · obtain ⟨s, t, rfl⟩ := List.append_of_mem ha
      exact ⟨a, [], s, t, rfl⟩
    · have : ¬ p'.Nodup := fun hc => h (List.nodup_cons.mpr ⟨ha, hc⟩)
      obtain ⟨x, l1, l2, l3, rfl⟩ := ih this
      exact ⟨x, a :: l1, l2, l3, rfl⟩

theorem walk_to_nodup {net : Network} {s : String}
    (hnc : ¬ HasNegCycleFrom net s) :
    ∀ (n : Nat) {p : List String} {c : Int} {t : String}, p.length ≤ n →
    Walk net s t p c → ∃ p' c', Walk net s t p' c' ∧ p'.Nodup ∧ c' ≤ c := by
  intro n
  induction n with
  | zero =>
    intro p c t hlen h
    exact absurd hlen (by have := h.ne_nil; cases p <;> simp_all)
  | succ n ih =>
    intro p c t hlen h
    by_cases hnd : p.Nodup
    · exact ⟨p, c, h, hnd, le_refl c⟩
    · obtain ⟨x, l1, l2, l3, rfl⟩ := exists_dup_decomp hnd
      obtain ⟨c₁, c₂, hw1, hw2, rfl⟩ := @Walk.split net t x l1 s (l2 ++ x :: l3) c h
      rw [← List.cons_append] at hw2
      obtain ⟨c₂₁, c₂₂, hcyc, hrest, rfl⟩ := @Walk.split net t x (x :: l2) x l3 c₂ hw2
      have hcycle_nonneg : 0 ≤ c₂₁ := by
        by_contra hneg
        exact hnc ⟨x, l1 ++ [x], c₁, (x :: l2) ++ [x], c₂₁, hw1, hcyc, by simp, by omega⟩
      have hnew := hw1.append hrest
      simp only [List.tail_cons] at hnew
      have hlen' : (l1 ++ [x] ++ l3).length ≤ n := by
        simp only [List.length_append, List.length_cons, List.length_nil] at hlen ⊢
        omega
      obtain ⟨p', c', hw', hnd', hle'⟩ := ih hlen' hnew
      exact ⟨p', c', hw', hnd', by omega⟩

theorem walk_pump {net : Network} {s x : String} {p q : List String} {W cq : Int}
    (hw : Walk net s x p W) (hq : Walk net x x q cq) :
    ∀ k : Nat, ∃ p', Walk net s x p' (W + k * cq) := by
  intro k
  induction k with
  | zero => exact ⟨p, by simpa using hw⟩
  | succ k ih =>
    obtain ⟨p', hp'⟩ := ih
    refine ⟨p' ++ q.tail, ?_⟩
    have := hp'.append hq
    have harith : W + ↑k * cq + cq = W + (↑k + 1) * cq := by ring
    rw [harith] at this
    simpa using this

/-! ## Bellman-Ford relaxation invariants -/

/-- Addition of an integer weight to a possibly-infinite cost. -/
def ECost.addInt : ECost → Int → ECost
  | ECost.fin c, w => ECost.fin (c + w)
  | ECost.inf, _ => ECost.inf

theorem ECost.addInt_mono {a b : ECost} (w : Int) (h : a ≤ b) :
    a.addInt w ≤ b.addInt w := by
  cases a <;> cases b <;> simp_all [ECost.addInt]
  all_goals omega

theorem ECost.eq_inf_of_inf_le {a : ECost} (h : ECost.inf ≤ a) : a = ECost.inf := by
  cases a <;> simp_all

theorem mem_network_edges_iff {net : Network} (hwf : NetWf net)
    {u v : String} {w : Int} :
    (u, v, w) ∈ network_edges net ↔ link_cost net u v = some w := by
  have hadjnodup : (dkeys net.adjacency_list).Nodup := by
    rw [hwf.adj_keys]; exact hwf.routers_nodup
  unfold network_edges link_cost
  rw [List.mem_flatMap]
  constructor
  · rintro ⟨⟨u', nbrs⟩, he, hmem⟩
    rw [List.mem_map] at hmem
    obtain ⟨⟨v', w'⟩, hn, heq⟩ := hmem
    injection heq with h1 h2
    injection h2 with h2 h3
    subst h1; subst h2; subst h3
    rw [dlookup_of_mem_nodup he hadjnodup]
    simp only [Option.some_bind]
    exact dlookup_of_mem_nodup hn (hwf.nbr_nodup _ he)
  · intro h
    cases hl : dlookup u net.adjacency_list with
    | none => rw [hl] at h; simp at h
    | some nbrs =>
      rw [hl] at h
      simp only [Option.some_bind] at h
      refine ⟨(u, nbrs), dlookup_mem hl, ?_⟩
      rw [List.mem_map]
      exact ⟨(v, w), dlookup_mem h, rfl⟩

/-- Soundness of the `min_costs` component: every finite value is realised
by a walk from the source. -/
def BFSound (net : Network) (start : String)
    (st : (String → ECost) × (String → Option String)) : Prop :=
  ∀ v c, st.1 v = ECost.fin c → ∃ p, Walk net start v p c

theorem bf_relax_sound {net : Network} {start : String}
    {st : (String → ECost) × (String → Option String)}
    {e : String × String × Int} (he : link_cost net e.1 e.2.1 = some e.2.2)
    (hs : BFSound net start st) : BFSound net start (bf_relax st e) := by
  unfold bf_relax
  split
  · exact hs
  · next c hu =>
    split
    · intro v cv hv
      dsimp only at hv
      rw [Function.update_apply] at hv
      split at hv
      · next hveq =>
        injection hv with hv
        obtain ⟨p, hp⟩ := hs e.1 c hu
        subst hveq
        exact ⟨p ++ [e.2.1], hv ▸ hp.snoc he⟩
      · exact hs v cv hv
    · exact hs

theorem bf_foldl_sound {net : Network} {start : String} :
    ∀ (l : List (String × String × Int))
      (st : (String → ECost) × (String → Option String)),
    (∀ e ∈ l, link_cost net e.1 e.2.1 = some e.2.2) → BFSound net start st →
    BFSound net start (l.foldl bf_relax st)
  | [], st, _, hs => hs
  | e :: l', st, hl, hs => by
    rw [List.foldl_cons]
    exact bf_foldl_sound l' (bf_relax st e)
      (fun e' he' => hl e' (List.mem_cons_of_mem _ he'))
      (bf_relax_sound (hl e (List.mem_cons_self _ _)) hs)

theorem bf_passes_sound {net : Network} {start : String}
    (hwf : NetWf net) :
    ∀ (n : Nat) (st : (String → ECost) × (String → Option String)),
    BFSound net start st →
    BFSound net start (bf_passes (network_edges net) n st)
  | 0, _, hs => hs
  | n + 1, st, hs => by
    unfold bf_passes
    refine bf_passes_sound hwf n _ (bf_foldl_sound _ _ ?_ hs)
    rintro ⟨u, v, w⟩ he
    exact (mem_network_edges_iff hwf).mp he

theorem bf_init_sound (net : Network) (start : String) :
    BFSound net start (bf_init start) := by
  intro v c hv
  unfold bf_init at hv
  simp only at hv
  split at hv
  · next h =>
    injection hv with hv
    subst h
    exact ⟨[v], hv ▸ Walk.single v⟩
  · exact absurd hv (by simp)

theorem bf_relax_mono {st : (String → ECost) × (String → Option String)}
    (e : String × String × Int) (v : String) : (bf_relax st e).1 v ≤ st.1 v := by
  unfold bf_relax
  split
  · exact ECost.le_refl _
  · next c hu =>
    split
    · next hlt =>
      dsimp only
      rw [Function.update_apply]
      split
      · next hveq => exact ECost.le_of_lt (hveq ▸ hlt)
      · exact ECost.le_refl _
    · exact ECost.le_refl _

theorem bf_foldl_mono :
    ∀ (l : List (String × String × Int))
      (st : (String → ECost) × (String → Option String)) (v : String),
    (l.foldl bf_relax st).1 v ≤ st.1 v
  | [], _, _ => ECost.le_refl _
  | e :: l', st, v => by
    rw [List.foldl_cons]
    exact ECost.le_trans (bf_foldl_mono l' (bf_relax st e) v) (bf_relax_mono e v)

theorem bf_passes_mono (edges : List (String × String × Int)) :
    ∀ (n : Nat) (st : (String → ECost) × (String → Option String)) (v : String),
    (bf_passes edges n st).1 v ≤ st.1 v
  | 0, _, _ => ECost.le_refl _
  | n + 1, st, v => by
    unfold bf_passes
    exact ECost.le_trans (bf_passes_mono edges n _ v) (bf_foldl_mono edges st v)

theorem bf_relax_through {st : (String → ECost) × (String → Option String)}
    (e : String × String × Int) : (bf_relax st e).1 e.2.1 ≤ (st.1 e.1).addInt e.2.2 := by
  unfold bf_relax
  split
  · next hu =>
    rw [hu]
    exact ECost.le_inf
  · next c hu =>
    rw [hu]
    split
    · next hlt =>
      dsimp only
      rw [Function.update_apply, if_pos rfl]
      exact ECost.le_refl _
    · next hlt => exact ECost.le_of_not_lt hlt

instance : @Trans ECost ECost ECost (· ≤ ·) (· ≤ ·) (· ≤ ·) := ⟨ECost.le_trans⟩

theorem bf_foldl_through {e : String × String × Int} :
    ∀ (l : List (String × String × Int))
      (st : (String → ECost) × (String → Option String)), e ∈ l →
    (l.foldl bf_relax st).1 e.2.1 ≤ (st.1 e.1).addInt e.2.2
  | [], _, hmem => absurd hmem (by simp)
  | e' :: l', st, hmem => by
    rw [List.foldl_cons]
    rcases List.mem_cons.mp hmem with rfl | hmem
    · calc (l'.foldl bf_relax (bf_relax st e)).1 e.2.1
          ≤ (bf_relax st e).1 e.2.1 := bf_foldl_mono l' _ _
        _ ≤ (st.1 e.1).addInt e.2.2 := bf_relax_through e
    · calc (l'.foldl bf_relax (bf_relax st e')).1 e.2.1
          ≤ ((bf_relax st e').1 e.1).addInt e.2.2 := bf_foldl_through l' _ hmem
        _ ≤ (st.1 e.1).addInt e.2.2 := ECost.addInt_mono _ (bf_relax_mono e' e.1)

theorem bf_passes_succ (edges : List (String × String × Int)) :
    ∀ (n : Nat) (st : (String → ECost) × (String → Option String)),
    bf_passes edges (n + 1) st = edges.foldl bf_relax (bf_passes edges n st)
  | 0, st => rfl
  | n + 1, st => by
    show bf_passes edges (n + 1) (edges.foldl bf_relax st) = _
    rw [bf_passes_succ edges n (edges.foldl bf_relax st)]
    rfl

theorem Walk.singleton_inv {net : Network} {s t a : String} {c : Int}
    (h : Walk net s t [a] c) : s = t ∧ s = a ∧ c = 0 := by
  cases h with
  | single _ => exact ⟨rfl, rfl, rfl⟩
  | cons w hl htail => exact absurd htail.ne_nil (by simp)

theorem Walk.snoc_inv {net : Network} :
    ∀ {p : List String} {s v : String} {c : Int}, Walk net s v p c → 2 ≤ p.length →
    ∃ u p' c' w, p = p' ++ [v] ∧ Walk net s u p' c' ∧ link_cost net u v = some w ∧
      c = c' + w := by
  intro p
  induction p with
  | nil => intro s v c h _; exact absurd h.ne_nil (by simp)
  | cons a q ih =>
    intro s v c h hlen
    obtain ⟨rfl, x, w, c', hl, htail, rfl⟩ := h.cons_inv (by
      intro hc
      rw [hc] at hlen
      simp at hlen)
    by_cases hq : 2 ≤ q.length
    · obtain ⟨u, p', c'', w', rfl, hw', hl', rfl⟩ := ih htail hq
      exact ⟨u, s :: p', w + c'', w', rfl, Walk.cons w hl hw', hl', by omega⟩
    · have hq1 : q.length = 1 := by
        have h2 : q.length ≠ 0 := fun hc => htail.ne_nil (List.length_eq_zero.mp hc)
        omega
      obtain ⟨b, rfl⟩ := List.length_eq_one.mp hq1
      obtain ⟨rfl, rfl, rfl⟩ := htail.singleton_inv
      exact ⟨s, [s], 0, w, rfl, Walk.single s, hl, by omega⟩

theorem bf_passes_complete {net : Network} {start : String} (hwf : NetWf net) :
    ∀ (k : Nat) {v : String} {p : List String} {c : Int},
    Walk net start v p c → p.length ≤ k + 1 →
    (bf_passes (network_edges net) k (bf_init start)).1 v ≤ ECost.fin c := by
  intro k
  induction k with
  | zero =>
    intro v p c hw hlen
    have hp1 : p.length = 1 := by
      have h2 : p.length ≠ 0 := fun hc => hw.ne_nil (List.length_eq_zero.mp hc)
      omega
    obtain ⟨a, rfl⟩ := List.length_eq_one.mp hp1
    obtain ⟨rfl, rfl, rfl⟩ := hw.singleton_inv
    show (bf_init start).1 start ≤ ECost.fin 0
    unfold bf_init
    simp
  | succ k ih =>
    intro v p c hw hlen
    by_cases hp : 2 ≤ p.length
    · obtain ⟨u, p', c', w, rfl, hw', hl, rfl⟩ := hw.snoc_inv hp
      have hlen' : p'.length ≤ k + 1 := by
        simp only [List.length_append, List.length_cons, List.length_nil] at hlen
        omega
      have hu := ih hw' hlen'
      rw [bf_passes_succ]
      have hmem : (u, v, w) ∈ network_edges net := (mem_network_edges_iff hwf).mpr hl
      calc ((network_edges net).foldl bf_relax
            (bf_passes (network_edges net) k (bf_init start))).1 v
          ≤ ((bf_passes (network_edges net) k (bf_init start)).1 u).addInt w :=
            bf_foldl_through (network_edges net) _ hmem
        _ ≤ (ECost.fin c').addInt w := ECost.addInt_mono w hu
        _ = ECost.fin (c' + w) := rfl
    · have hp1 : p.length = 1 := by
        have h2 : p.length ≠ 0 := fun hc => hw.ne_nil (List.length_eq_zero.mp hc)
        omega
      obtain ⟨a, rfl⟩ := List.length_eq_one.mp hp1
      obtain ⟨rfl, rfl, rfl⟩ := hw.singleton_inv
      calc (bf_passes (network_edges net) (k + 1) (bf_init start)).1 start
          ≤ (bf_init start).1 start := bf_passes_mono _ _ _ _
        _ ≤ ECost.fin 0 := by unfold bf_init; simp

/-! ## The negative-cycle characterisation -/

/-- Final `min_costs` of the bellman_ford relaxation phase. -/
def bf_minC (net : Network) (start : String) : String → ECost :=
  (bf_passes (network_edges net) ((dkeys net.routers).length - 1) (bf_init start)).1

theorem bf_minC_sound {net : Network} {start : String} (hwf : NetWf net) (v : String)
    (c : Int) (h : bf_minC net start v = ECost.fin c) : ∃ p, Walk net start v p c :=
  bf_passes_sound hwf _ _ (bf_init_sound net start) v c h

theorem bf_minC_start_le {net : Network} {start : String} :
    bf_minC net start start ≤ ECost.fin 0 := by
  calc bf_minC net start start ≤ (bf_init start).1 start := bf_passes_mono _ _ _ _
    _ ≤ ECost.fin 0 := by unfold bf_init; simp

theorem bf_detect_false_edge {edges : List (String × String × Int)}
    {minC : String → ECost} (hdet : bf_detect edges minC = false)
    {e : String × String × Int} (he : e ∈ edges) {c : Int}
    (hc : minC e.1 = ECost.fin c) : minC e.2.1 ≤ ECost.fin (c + e.2.2) := by
  unfold bf_detect at hdet
  rw [List.any_eq_false] at hdet
  have h1 := hdet e he
  rw [hc] at h1
  simp only [decide_eq_true_eq] at h1
  exact ECost.le_of_not_lt h1

theorem bf_detect_false_walk_bound {net : Network} (hwf : NetWf net)
    {minC : String → ECost} (hdet : bf_detect (network_edges net) minC = false) :
    ∀ {u v : String} {p : List String} {c : Int}, Walk net u v p c →
    ∀ cu, minC u = ECost.fin cu → minC v ≤ ECost.fin (cu + c) := by
  intro u v p c hw
  induction hw with
  | single x =>
    intro cu hcu
    rw [hcu]
    simp
  | cons w hl htail ih =>
    rename_i a b t q cq
    intro cu hcu
    have hmem : (a, b, w) ∈ network_edges net := (mem_network_edges_iff hwf).mpr hl
    have hb := bf_detect_false_edge hdet hmem hcu
    cases hbval : minC b with
    | inf => rw [hbval] at hb; exact absurd hb (by simp)
    | fin cb =>
      rw [hbval] at hb
      have := ih cb hbval
      calc minC t ≤ ECost.fin (cb + cq) := this
        _ ≤ ECost.fin (cu + (w + cq)) := by
            simp only [ECost.fin_le_fin] at hb ⊢
            omega

theorem bf_no_cycle_of_detect_false {net : Network} {start : String} (hwf : NetWf net)
    (hdet : bf_detect (network_edges net) (bf_minC net start) = false) :
    ¬ HasNegCycleFrom net start := by
  rintro ⟨x, p, W, q, cq, hwx, hcyc, hqlen, hneg⟩
  obtain ⟨cs, hcs, hcs0⟩ : ∃ cs, bf_minC net start start = ECost.fin cs ∧ cs ≤ 0 := by
    have := @bf_minC_start_le net start
    cases h : bf_minC net start start with
    | inf => rw [h] at this; exact absurd this (by simp)
    | fin c => rw [h] at this; exact ⟨c, rfl, by simpa using this⟩
  have hbound : ∀ k : Nat, bf_minC net start x ≤ ECost.fin (cs + (W + k * cq)) := by
    intro k
    obtain ⟨p', hp'⟩ := walk_pump hwx hcyc k
    exact bf_detect_false_walk_bound hwf hdet hp' cs hcs
  cases hx : bf_minC net start x with
  | inf =>
    have := hbound 0
    rw [hx] at this
    exact absurd this (by simp)
  | fin m =>
    set k : Nat := (cs + W - m).toNat + 1 with hk
    have h1 := hbound k
    rw [hx] at h1
    simp only [ECost.fin_le_fin] at h1
    have h2 : (k : Int) * cq ≤ (k : Int) * (-1) :=
      mul_le_mul_of_nonneg_left (by omega) (by positivity)
    have h3 : cs + W - m ≤ ((cs + W - m).toNat : Int) := Int.self_le_toNat _
    have h4 : (k : Int) = ((cs + W - m).toNat : Int) + 1 := by
      rw [hk]
      push_cast
      ring
    omega

theorem bf_cycle_of_detect_true {net : Network} {start : String} (hwf : NetWf net)
    (hmem : start ∈ dkeys net.routers)
    (hdet : bf_detect (network_edges net) (bf_minC net start) = true) :
    HasNegCycleFrom net start := by
  by_contra hnc
  unfold bf_detect at hdet
  rw [List.any_eq_true] at hdet
  obtain ⟨e, hemem, he⟩ := hdet
  obtain ⟨c, hc, hlt⟩ : ∃ c, bf_minC net start e.1 = ECost.fin c ∧
      ECost.fin (c + e.2.2) < bf_minC net start e.2.1 := by
    cases h : bf_minC net start e.1 with
    | inf => rw [h] at he; simp at he
    | fin c =>
      rw [h] at he
      simp only [decide_eq_true_eq] at he
      exact ⟨c, rfl, he⟩
  obtain ⟨p, hp⟩ := bf_minC_sound hwf e.1 c hc
  have hlink : link_cost net e.1 e.2.1 = some e.2.2 := by
    have : (e.1, e.2.1, e.2.2) ∈ network_edges net := hemem
    exact (mem_network_edges_iff hwf).mp this
  have hpv := hp.snoc hlink
  obtain ⟨p', c', hw', hnd', hle'⟩ :=
    walk_to_nodup hnc (p ++ [e.2.1]).length (le_refl _) hpv
  have hsub : ∀ y ∈ p', y ∈ dkeys net.routers := hw'.subset hwf hmem
  have hlen : p'.length ≤ (dkeys net.routers).length :=
    ((List.nodup_iff_sublist.mp hnd' |> fun _ => hnd'.subperm hsub) |>.length_le)
  have hV : 1 ≤ (dkeys net.routers).length := by
    cases hl : dkeys net.routers with
    | nil => rw [hl] at hmem; simp at hmem
    | cons a l => simp
  have hcomp := bf_passes_complete hwf ((dkeys net.routers).length - 1) hw'
    (by omega)
  have hfin : bf_minC net start e.2.1 ≤ ECost.fin (c + e.2.2) :=
    ECost.le_trans hcomp (by simpa using hle')
  exact ECost.lt_irrefl (ECost.lt_of_le_of_lt hfin hlt)

theorem netScen_reachable : NetReachable netScen :=
  NetReachable.step (NetReachable.step (NetReachable.step (NetReachable.step
    (NetReachable.step (NetReachable.step (NetReachable.step (NetReachable.step
      NetReachable.init
      (NetStep.add_router_step "A" _)) (NetStep.add_router_step "B" _))
      (NetStep.add_router_step "C" _)) (NetStep.add_router_step "D" _))
      (NetStep.add_link_step "A" "B" "1" _)) (NetStep.add_link_step "B" "C" "2" _))
      (NetStep.add_link_step "A" "C" "5" _)) (NetStep.add_link_step "C" "D" "1" _)

theorem netCyc_reachable : NetReachable netCyc :=
  NetReachable.step (NetReachable.step (NetReachable.step (NetReachable.step
    (NetReachable.step (NetReachable.step
      NetReachable.init
      (NetStep.add_router_step "A" _)) (NetStep.add_router_step "B" _))
      (NetStep.add_router_step "C" _)) (NetStep.add_link_step "A" "B" "1" _))
      (NetStep.add_link_step "B" "C" "-3" _)) (NetStep.add_link_step "C" "A" "1" _)

theorem netScenE_reachable : NetReachable netScenE :=
  NetReachable.step netScen_reachable (NetStep.add_router_step "E" _)

/-- C3: for every wellformed topology and existing source router,
bellman_ford returns the negative-cycle sentinel `None` exactly when a
directed cycle of strictly negative total cost is reachable from the
source. -/
theorem C3_bellman_ford_negative_cycle (net : Network) (s : String) (hwf : NetWf net)
    (hs : (dlookup s net.routers).isSome) :
    (bellman_ford s net).1 = none ↔ HasNegCycleFrom net s := by
  unfold bellman_ford
  rw [if_neg (by simp only [Option.isNone_iff_eq_none]; intro hc; rw [hc] at hs; simp at hs)]
  dsimp only
  by_cases hd : bf_detect (network_edges net)
      (bf_passes (network_edges net) ((dkeys net.routers).length - 1) (bf_init s)).1
  · rw [if_pos hd]
    simp only [true_iff]
    exact bf_cycle_of_detect_true hwf ((dlookup_isSome_iff _ _).mp hs) hd
  · rw [if_neg hd]
    simp only [false_iff, reduceCtorEq]
    exact fun hc => (bf_no_cycle_of_detect_false hwf
      (by rwa [Bool.not_eq_true] at hd)) hc

theorem C3_bellman_ford_negative_cycle_witness :
    HasNegCycleFrom netCyc "A" ∧ ¬ HasNegCycleFrom netScen "A" :=
  ⟨(C3_bellman_ford_negative_cycle netCyc "A" (wf_reachable netCyc_reachable)
      (by decide)).mp (by decide),
   fun hc => by
    have := (C3_bellman_ford_negative_cycle netScen "A" (wf_reachable netScen_reachable)
      (by decide)).mpr hc
    rw [show (bellman_ford "A" netScen).1 =
      some [("A", ["A"]), ("B", ["A", "B"]), ("C", ["A", "B", "C"]),
        ("D", ["A", "B", "C", "D"])] from by decide] at this
    exact Option.noConfusion this⟩

/-! ## Disconnected routers -/

theorem dlookup_map_pair {α : Type} (f : String → α) {k : String} :
    ∀ {l : List String}, k ∈ l → dlookup k (l.map (fun r => (r, f r))) = some (f k)
  | [], hk => absurd hk (by simp)
  | a :: l', hk => by
    rw [List.map_cons, dlookup_cons]
    by_cases h : a = k
    · subst h
      rw [if_pos rfl]
    · rw [if_neg h]
      rcases List.mem_cons.mp hk with hk | hk
      · exact absurd hk.symm h
      · exact dlookup_map_pair f hk

theorem dijkstra_relax_avoid {E : String} :
    ∀ (nbrs : List (String × Int)) (c : Int) (path : List String)
      (pq : List QEntry) (minC : String → ECost),
    (∀ n ∈ nbrs, n.1 ≠ E) → (∀ e ∈ pq, e.2.1 ≠ E) → minC E = ECost.inf →
    (∀ e ∈ (dijkstra_relax c path nbrs pq minC).1, e.2.1 ≠ E) ∧
      (dijkstra_relax c path nbrs pq minC).2 E = ECost.inf
  | [], c, path, pq, minC, _, hpq, hmin => ⟨hpq, hmin⟩
  | n :: nbrs', c, path, pq, minC, hn, hpq, hmin => by
    have hstep : dijkstra_relax c path (n :: nbrs') pq minC =
        dijkstra_relax c path nbrs'
          (if ECost.fin (c + n.2) < minC n.1 then qpush (c + n.2, n.1, path) pq else pq)
          (if ECost.fin (c + n.2) < minC n.1 then
            Function.update minC n.1 (ECost.fin (c + n.2)) else minC) := by
      unfold dijkstra_relax
      rw [List.foldl_cons]
      split <;> rfl
    rw [hstep]
    have hnE : n.1 ≠ E := hn n (List.mem_cons_self _ _)
    apply dijkstra_relax_avoid nbrs' c path _ _
      (fun n' hn' => hn n' (List.mem_cons_of_mem _ hn'))
    · intro e he
      split at he
      · rcases (List.mem_orderedInsert qle).mp he with rfl | he
        · exact hnE
        · exact hpq e he
      · exact hpq e he
    · split
      · rw [Function.update_apply, if_neg (fun hc => hnE hc.symm)]
        exact hmin
      · exact hmin

theorem dijkstra_loop_avoid {net : Network} {start E : String}
    (hEin : ∀ u, link_cost net u E = none) :
    ∀ (fuel : Nat) (pq : List QEntry) (minC : String → ECost)
      (paths : String → List String) (table : String → Option String × ECost),
    (∀ e ∈ pq, e.2.1 ≠ E) → minC E = ECost.inf → paths E = [] →
    table E = (none, ECost.inf) →
    (dijkstra_loop net start fuel pq minC paths table).1 E = [] ∧
      (dijkstra_loop net start fuel pq minC paths table).2 E = (none, ECost.inf)
  | 0, pq, minC, paths, table, hpq, hmin, hpaths, htable => ⟨hpaths, htable⟩
  | _ + 1, [], minC, paths, table, hpq, hmin, hpaths, htable => ⟨hpaths, htable⟩
  | fuel + 1, e :: pq, minC, paths, table, hpq, hmin, hpaths, htable => by
    unfold dijkstra_loop
    split
    · exact dijkstra_loop_avoid hEin fuel pq minC paths table
        (fun e' he' => hpq e' (List.mem_cons_of_mem _ he')) hmin hpaths htable
    · have heE : e.2.1 ≠ E := hpq e (List.mem_cons_self _ _)
      have hnbrs : ∀ n ∈ (dlookup e.2.1 net.adjacency_list).getD [], n.1 ≠ E := by
        cases hl : dlookup e.2.1 net.adjacency_list with
        | none => simp
        | some nbrs =>
          simp only [Option.getD_some]
          intro n hn hc
          have : (dlookup n.1 nbrs).isSome := by
            rw [dlookup_isSome_iff]
            exact List.mem_map_of_mem Prod.fst hn
          have hlc : (link_cost net e.2.1 n.1).isSome := by
            unfold link_cost
            rw [hl]
            simpa using this
          rw [hc, hEin e.2.1] at hlc
          simp at hlc
      obtain ⟨hpq', hmin'⟩ := dijkstra_relax_avoid
        ((dlookup e.2.1 net.adjacency_list).getD []) e.1 (e.2.2 ++ [e.2.1]) pq minC
        hnbrs (fun e' he' => hpq e' (List.mem_cons_of_mem _ he')) hmin
      exact dijkstra_loop_avoid hEin fuel _ _ _ _ hpq' hmin'
        (by rw [Function.update_apply, if_neg (fun hc => heE hc.symm)]; exact hpaths)
        (by rw [Function.update_apply, if_neg (fun hc => heE hc.symm)]; exact htable)

theorem bf_relax_keep_inf {st : (String → ECost) × (String → Option String)}
    {e : String × String × Int} {E : String} (hne : e.2.1 ≠ E)
    (h : st.1 E = ECost.inf) : (bf_relax st e).1 E = ECost.inf := by
  unfold bf_relax
  split
  · exact h
  · split
    · dsimp only
      rw [Function.update_apply, if_neg (fun hc => hne hc.symm)]
      exact h
    · exact h

theorem bf_foldl_keep_inf {E : String} :
    ∀ (l : List (String × String × Int))
      (st : (String → ECost) × (String → Option String)),
    (∀ e ∈ l, e.2.1 ≠ E) → st.1 E = ECost.inf → (l.foldl bf_relax st).1 E = ECost.inf
  | [], _, _, h => h
  | e :: l', st, hl, h => by
    rw [List.foldl_cons]
    exact bf_foldl_keep_inf l' _ (fun e' he' => hl e' (List.mem_cons_of_mem _ he'))
      (bf_relax_keep_inf (hl e (List.mem_cons_self _ _)) h)

theorem bf_passes_keep_inf {E : String} {edges : List (String × String × Int)}
    (hl : ∀ e ∈ edges, e.2.1 ≠ E) :
    ∀ (n : Nat) (st : (String → ECost) × (String → Option String)),
    st.1 E = ECost.inf → (bf_passes edges n st).1 E = ECost.inf
  | 0, _, h => h
  | n + 1, st, h => by
    unfold bf_passes
    exact bf_passes_keep_inf hl n _ (bf_foldl_keep_inf edges st hl h)

theorem bf_finish_avoid {start E : String} {minC : String → ECost}
    {pred : String → Option String} {fuel : Nat} (hE : minC E = ECost.inf) :
    ∀ (dests : List String) (table : String → Option String × ECost),
    dlookup E (bf_finish start minC pred fuel dests table).1 = none ∧
      (bf_finish start minC pred fuel dests table).2 E = table E
  | [], table => ⟨rfl, rfl⟩
  | dest :: rest, table => by
    have hdE : ∀ c : Int, minC dest = ECost.fin c → dest ≠ E := by
      intro c hc he
      rw [he, hE] at hc
      exact ECost.noConfusion hc
    unfold bf_finish
    cases hc : minC dest with
    | inf => exact bf_finish_avoid hE rest table
    | fin c =>
      have hne := hdE c hc
      dsimp only
      split
      · obtain ⟨h1, h2⟩ := bf_finish_avoid hE rest
          (Function.update table dest (some (match bf_reconstruct pred fuel (some dest) [] with
            | _ :: second :: _ => second
            | _ => dest), ECost.fin c))
        refine ⟨?_, ?_⟩
        · rw [dlookup_cons, if_neg hne]
          exact h1
        · rw [h2, Function.update_apply, if_neg (fun hcc => hne hcc.symm)]
      · split
        · next hds =>
          subst hds
          obtain ⟨h1, h2⟩ := bf_finish_avoid hE rest
            (Function.update table dest (some dest, ECost.fin 0))
          refine ⟨?_, ?_⟩
          · rw [dlookup_cons, if_neg hne]
            exact h1
          · rw [h2, Function.update_apply, if_neg (fun hcc => hne hcc.symm)]
        · exact bf_finish_avoid hE rest table

theorem exists_lookup_pair {α : Type} (k E : String) (f : String → α)
    (l : List String) (routers : List (String × List (String × α))) (hE : E ∈ l) :
    ∃ tbl, dlookup k (dinsert k (l.map (fun r => (r, f r))) routers) = some tbl ∧
      dlookup E tbl = some (f E) := by
  refine ⟨l.map (fun r => (r, f r)), ?_, dlookup_map_pair f hE⟩
  rw [dlookup_dinsert, if_pos rfl]

theorem link_cost_none_of_forall {net : Network} {E : String}
    (h : ∀ e ∈ net.adjacency_list, dlookup E e.2 = none) (u : String) :
    link_cost net u E = none := by
  unfold link_cost
  cases hl : dlookup u net.adjacency_list with
  | none => rfl
  | some nbrs => simpa using h _ (dlookup_mem hl)

theorem link_cost_none_of_isolated_out {net : Network} {E : String}
    (h : (dlookup E net.adjacency_list).getD [] = []) (v : String) :
    link_cost net E v = none := by
  unfold link_cost
  cases hl : dlookup E net.adjacency_list with
  | none => rfl
  | some nbrs =>
    rw [hl] at h
    simp only [Option.getD_some] at h
    subst h
    rfl

/-- C6 (amended): for a wellformed topology with a router E having no
incoming and no outgoing links and a different existing source, a successful
dijkstra run maps E to the empty sequence and leaves the source's table
entry for E as `(None, inf)`, while a successful bellman_ford run omits E
from its result mapping entirely (it does not map it to an empty sequence)
and likewise leaves the entry `(None, inf)`. -/
theorem C6_disconnected_router (net : Network) (s E : String) (hwf : NetWf net)
    (hs : (dlookup s net.routers).isSome) (hE : E ∈ dkeys net.routers) (hEs : E ≠ s)
    (hEout : ∀ v, link_cost net E v = none) (hEin : ∀ u, link_cost net u E = none) :
    (has_negative_edges net = false →
      ∃ m, (dijkstra s net).1 = some m ∧ dlookup E m = some [] ∧
        ∃ tbl, dlookup s (dijkstra s net).2.routers = some tbl ∧
          dlookup E tbl = some (none, ECost.inf)) ∧
    (∀ m, (bellman_ford s net).1 = some m →
      dlookup E m = none ∧
        ∃ tbl, dlookup s (bellman_ford s net).2.routers = some tbl ∧
          dlookup E tbl = some (none, ECost.inf)) := by
  have hsnone : ¬ (dlookup s net.routers).isNone := by
    simp only [Option.isNone_iff_eq_none]
    intro hc
    rw [hc] at hs
    simp at hs
  constructor
  · intro hneg
    unfold dijkstra
    rw [if_neg hsnone, if_neg (by rw [hneg]; exact Bool.false_ne_true)]
    dsimp only
    obtain ⟨hpathsE, htableE⟩ := @dijkstra_loop_avoid net s E hEin
      ((dkeys net.routers).length * (adj_size net + 1) + 1) [(0, s, [])]
      (fun r => if r = s then ECost.fin 0 else ECost.inf) (fun _ => [])
      (fun r => if r = s then (some s, ECost.fin 0) else (none, ECost.inf))
      (by
        intro e he
        simp only [List.mem_singleton] at he
        rw [he]
        exact fun hc => hEs hc.symm)
      (by simp [hEs]) rfl (by simp [hEs])
    refine ⟨_, rfl, ?_, ?_⟩
    · rw [dlookup_map_pair _ hE, hpathsE]
    · obtain ⟨tbl, h1, h2⟩ := exists_lookup_pair s E
        ((dijkstra_loop net s ((dkeys net.routers).length * (adj_size net + 1) + 1)
          [(0, s, [])] (fun r => if r = s then ECost.fin 0 else ECost.inf) (fun _ => [])
          (fun r => if r = s then (some s, ECost.fin 0) else (none, ECost.inf))).2)
        (dkeys net.routers) net.routers hE
      rw [htableE] at h2
      exact ⟨tbl, h1, h2⟩
  · intro m hm
    unfold bellman_ford at hm ⊢
    rw [if_neg hsnone] at hm ⊢
    dsimp only at hm ⊢
    have hEtargets : ∀ e ∈ network_edges net, e.2.1 ≠ E := by
      rintro ⟨u, v, w⟩ he hc
      dsimp only at hc
      subst hc
      have := (mem_network_edges_iff hwf).mp he
      rw [hEin u] at this
      exact Option.noConfusion this
    have hminE : (bf_passes (network_edges net) ((dkeys net.routers).length - 1)
        (bf_init s)).1 E = ECost.inf :=
      bf_passes_keep_inf hEtargets _ _ (by unfold bf_init; simp [hEs])
    by_cases hd : bf_detect (network_edges net)
        (bf_passes (network_edges net) ((dkeys net.routers).length - 1) (bf_init s)).1
    · rw [if_pos hd] at hm
      exact absurd hm (by simp)
    · rw [if_neg hd] at hm ⊢
      dsimp only at hm ⊢
      injection hm with hm
      subst hm
      obtain ⟨h1, h2⟩ := bf_finish_avoid hminE (dkeys net.routers)
        (fun r => if r = s then (some s, ECost.fin 0) else (none, ECost.inf))
      refine ⟨h1, ?_⟩
      obtain ⟨tbl, h3, h4⟩ := exists_lookup_pair s E
        ((bf_finish s
          (bf_passes (network_edges net) ((dkeys net.routers).length - 1) (bf_init s)).1
          (bf_passes (network_edges net) ((dkeys net.routers).length - 1) (bf_init s)).2
          ((dkeys net.routers).length + 1) (dkeys net.routers)
          (fun r => if r = s then (some s, ECost.fin 0) else (none, ECost.inf))).2)
        (dkeys net.routers) net.routers hE
      rw [h2, if_neg hEs] at h4
      exact ⟨tbl, h3, h4⟩

theorem C6_disconnected_router_counterexample :
    (bellman_ford "A" netScenE).1 ≠ none ∧
    dlookup "E" ((bellman_ford "A" netScenE).1.getD []) ≠ some [] ∧
    dlookup "E" ((bellman_ford "A" netScenE).1.getD []) = none := by
  decide

theorem C6_disconnected_router_witness :
    (∃ m, (dijkstra "A" netScenE).1 = some m ∧ dlookup "E" m = some [] ∧
      ∃ tbl, dlookup "A" (dijkstra "A" netScenE).2.routers = some tbl ∧
        dlookup "E" tbl = some (none, ECost.inf)) ∧
    (dlookup "E" ((bellman_ford "A" netScenE).1.getD []) = none ∧
      ∃ tbl, dlookup "A" (bellman_ford "A" netScenE).2.routers = some tbl ∧
        dlookup "E" tbl = some (none, ECost.inf)) := by
  have h := C6_disconnected_router netScenE "A" "E" (wf_reachable netScenE_reachable)
    (by decide) (by decide) (by decide)
    (link_cost_none_of_isolated_out (by decide))
    (link_cost_none_of_forall (by decide))
  exact ⟨h.1 (by decide), h.2 ((bellman_ford "A" netScenE).1.getD []) (by decide)⟩

/-! ## Dijkstra loop invariant -/

theorem qle_cost {a b : QEntry} (h : qle a b) : a.1 ≤ b.1 := by
  rcases h with h | ⟨h, _⟩
  · omega
  · omega

theorem sorted_head_min {e : QEntry} {pq : List QEntry}
    (hs : List.Pairwise qle (e :: pq)) : ∀ e' ∈ e :: pq, e.1 ≤ e'.1 := by
  intro e' he'
  rcases List.mem_cons.mp he' with rfl | he'
  · omega
  · exact qle_cost ((List.pairwise_cons.mp hs).1 e' he')

theorem length_qpush (e : QEntry) (pq : List QEntry) :
    (qpush e pq).length = pq.length + 1 := by
  unfold qpush
  rw [(List.perm_orderedInsert qle e pq).length_eq]
  rfl

theorem countP_settle {l : List String} {u : String} (hmem : u ∈ l) (hnd : l.Nodup)
    {p p' : String → Bool} (hpu : p u = true) (hp'u : p' u = false)
    (hother : ∀ v, v ≠ u → p' v = p v) : l.countP p' + 1 = l.countP p := by
  induction l with
  | nil => simp at hmem
  | cons a rest ih =>
    rw [List.nodup_cons] at hnd
    by_cases ha : a = u
    · subst ha
      rw [List.countP_cons, List.countP_cons, hpu, hp'u]
      have : rest.countP p' = rest.countP p := by
        apply List.countP_congr
        intro v hv
        simp [hother v (fun hc => hnd.1 (hc ▸ hv))]
      simp [this]
    · rcases List.mem_cons.mp hmem with rfl | hmem
      · exact absurd rfl ha
      · rw [List.countP_cons, List.countP_cons, hother a ha]
        have := ih hmem hnd.2
        omega

theorem nbrs_length_le_adj_size {net : Network} {u : String}
    {nbrs : List (String × Int)} (h : dlookup u net.adjacency_list = some nbrs) :
    nbrs.length ≤ adj_size net := by
  unfold adj_size
  have hmem := dlookup_mem h
  have : nbrs.length ∈ net.adjacency_list.map (fun e => e.2.length) :=
    List.mem_map.mpr ⟨(u, nbrs), hmem, rfl⟩
  exact List.le_sum_of_mem this

/-- Correctness invariant of the dijkstra loop. A router is settled exactly
when its `shortest_paths` entry is nonempty. -/
structure DInv (net : Network) (start : String) (pq : List QEntry)
    (minC : String → ECost) (paths : String → List String)
    (table : String → Option String × ECost) : Prop where
  sorted : List.Pairwise qle pq
  qsound : ∀ e ∈ pq, e.2.1 ∈ dkeys net.routers ∧
    Walk net start e.2.1 (e.2.2 ++ [e.2.1]) e.1 ∧ minC e.2.1 ≤ ECost.fin e.1
  settled_spec : ∀ u, paths u ≠ [] → ∃ c : Int, minC u = ECost.fin c ∧
    Walk net start u (paths u) c ∧ (∀ q c', Walk net start u q c' → c ≤ c') ∧
    table u = (some (next_hop_of start (paths u)), ECost.fin c)
  unsettled_best : ∀ u, paths u = [] → ∀ c : Int, minC u = ECost.fin c →
    ∃ e ∈ pq, e.2.1 = u ∧ e.1 = c
  dominated : ∀ u, paths u ≠ [] → ∀ e ∈ pq, minC u ≤ ECost.fin e.1
  frontier : ∀ u, paths u ≠ [] → ∀ v w, link_cost net u v = some w →
    minC v ≤ (minC u).addInt w
  unsettled_table : ∀ u, paths u = [] →
    table u = if u = start then (some start, ECost.fin 0) else (none, ECost.inf)
  start_unsettled : paths start = [] → pq = [(0, start, [])] ∧
    minC start = ECost.fin 0 ∧ ∀ u, paths u = []

/-- Termination measure of the loop: unsettled routers weighted by the link
count, plus the queue size. -/
def d_phi (net : Network) (pq : List QEntry) (paths : String → List String) : Nat :=
  (dkeys net.routers).countP (fun v => decide (paths v = [])) * (adj_size net + 1) +
    pq.length

theorem dinv_init {net : Network} {start : String}
    (hstart : start ∈ dkeys net.routers) :
    DInv net start [(0, start, [])]
      (fun r => if r = start then ECost.fin 0 else ECost.inf)
      (fun _ => [])
      (fun r => if r = start then (some start, ECost.fin 0) else (none, ECost.inf)) := by
  constructor
  · simp
  · intro e he
    simp only [List.mem_singleton] at he
    subst he
    exact ⟨hstart, Walk.single start, by simp⟩
  · intro u hu
    simp at hu
  · intro u _ c hc
    simp only at hc
    by_cases h : u = start
    · subst h
      rw [if_pos rfl] at hc
      injection hc with hc
      exact ⟨(0, u, []), by simp, rfl, hc⟩
    · rw [if_neg h] at hc
      exact absurd hc (by simp)
  · intro u hu
    simp at hu
  · intro u hu
    simp at hu
  · intro u _
    rfl
  · intro _
    exact ⟨rfl, by simp, fun u => rfl⟩

theorem dcover_boundary {net : Network} {start : String}
    {pq : List QEntry} {minC : String → ECost} {paths : String → List String}
    {table : String → Option String × ECost}
    (hneg : has_negative_edges net = false)
    (inv : DInv net start pq minC paths table) :
    ∀ {q : List String} {x v : String} {cw : Int}, Walk net x v q cw →
    paths x ≠ [] → paths v = [] → ∀ cx, minC x = ECost.fin cx →
    ∃ e ∈ pq, e.1 ≤ cx + cw := by
  intro q x v cw hw
  induction hw with
  | single y =>
    intro hx hv _ _
    exact absurd hv hx
  | cons w' hl htail ih =>
    rename_i a y t p cq
    intro hx hv cx hcx
    have hfront := inv.frontier a hx y w' hl
    rw [hcx] at hfront
    by_cases hy : paths y = []
    · obtain ⟨cy, hcy, hcyle⟩ : ∃ cy, minC y = ECost.fin cy ∧ cy ≤ cx + w' := by
        cases h : minC y with
        | inf => rw [h] at hfront; exact absurd hfront (by simp [ECost.addInt])
        | fin cy =>
          rw [h] at hfront
          exact ⟨cy, rfl, by simpa [ECost.addInt] using hfront⟩
      obtain ⟨e, hemem, _, hecost⟩ := inv.unsettled_best y hy cy hcy
      have hcq : 0 ≤ cq := walk_cost_nonneg hneg htail
      exact ⟨e, hemem, by omega⟩
    · obtain ⟨cy, hcy, _, _, _⟩ := inv.settled_spec y hy
      have hcyle : cy ≤ cx + w' := by
        rw [hcy] at hfront
        simpa [ECost.addInt] using hfront
      obtain ⟨e, hemem, hecost⟩ := ih hy hv cy hcy
      exact ⟨e, hemem, by omega⟩

theorem dcover {net : Network} {start : String}
    {pq : List QEntry} {minC : String → ECost} {paths : String → List String}
    {table : String → Option String × ECost}
    (hneg : has_negative_edges net = false)
    (inv : DInv net start pq minC paths table) :
    ∀ {q : List String} {v : String} {cw : Int}, Walk net start v q cw →
    paths v = [] → ∃ e ∈ pq, e.1 ≤ cw := by
  intro q v cw hw hv
  by_cases hs : paths start = []
  · obtain ⟨hpq, _, _⟩ := inv.start_unsettled hs
    exact ⟨(0, start, []), by rw [hpq]; simp, walk_cost_nonneg hneg hw⟩
  · obtain ⟨cs, hcs, _, hmin, _⟩ := inv.settled_spec start hs
    have hcs0 : cs ≤ 0 := hmin [start] 0 (Walk.single start)
    obtain ⟨e, hemem, hecost⟩ := dcover_boundary hneg inv hw hs hv cs hcs
    exact ⟨e, hemem, by omega⟩

theorem dijkstra_relax_minC_mono {c : Int} {path : List String} :
    ∀ (nbrs : List (String × Int)) (pq : List QEntry) (minC : String → ECost)
      (v : String), (dijkstra_relax c path nbrs pq minC).2 v ≤ minC v
  | [], _, _, v => ECost.le_refl _
  | n :: nbrs', pq, minC, v => by
    have hstep : dijkstra_relax c path (n :: nbrs') pq minC =
        dijkstra_relax c path nbrs'
          (if ECost.fin (c + n.2) < minC n.1 then qpush (c + n.2, n.1, path) pq else pq)
          (if ECost.fin (c + n.2) < minC n.1 then
            Function.update minC n.1 (ECost.fin (c + n.2)) else minC) := by
      unfold dijkstra_relax
      rw [List.foldl_cons]
      split <;> rfl
    rw [hstep]
    refine ECost.le_trans (dijkstra_relax_minC_mono nbrs' _ _ v) ?_
    split
    · next hlt =>
      rw [Function.update_apply]
      split
      · next hveq => exact ECost.le_of_lt (hveq ▸ hlt)
      · exact ECost.le_refl _
    · exact ECost.le_refl _

theorem dijkstra_relax_noop {c : Int} {path : List String} :
    ∀ (nbrs : List (String × Int)) (pq : List QEntry) (minC : String → ECost),
    (∀ n ∈ nbrs, ¬ ECost.fin (c + n.2) < minC n.1) →
    dijkstra_relax c path nbrs pq minC = (pq, minC)
  | [], _, _, _ => rfl
  | n :: nbrs', pq, minC, h => by
    have hn := h n (List.mem_cons_self _ _)
    have hstep : dijkstra_relax c path (n :: nbrs') pq minC =
        dijkstra_relax c path nbrs' pq minC := by
      unfold dijkstra_relax
      rw [List.foldl_cons, if_neg hn]
    rw [hstep]
    exact dijkstra_relax_noop nbrs' pq minC (fun n' hn' => h n' (List.mem_cons_of_mem _ hn'))


theorem dijkstra_relax_spec {net : Network} {start u : String} {c : Int}
    {path : List String} (hwf : NetWf net) (hneg : has_negative_edges net = false)
    (paths' : String → List String) (table' : String → Option String × ECost)
    (hpu : paths' u ≠ []) :
    ∀ (nbrs : List (String × Int)) (pq : List QEntry) (minC : String → ECost),
    (∀ n ∈ nbrs, link_cost net u n.1 = some n.2) →
    List.Pairwise qle pq →
    (∀ e ∈ pq, e.2.1 ∈ dkeys net.routers ∧ Walk net start e.2.1 (e.2.2 ++ [e.2.1]) e.1 ∧
      minC e.2.1 ≤ ECost.fin e.1) →
    (∀ e ∈ pq, c ≤ e.1) →
    minC u = ECost.fin c →
    (∀ v, paths' v ≠ [] → ∃ cv : Int, minC v = ECost.fin cv ∧
      Walk net start v (paths' v) cv ∧ (∀ q c', Walk net start v q c' → cv ≤ c') ∧
      table' v = (some (next_hop_of start (paths' v)), ECost.fin cv)) →
    (∀ v, paths' v ≠ [] → minC v ≤ ECost.fin c) →
    (∀ v, paths' v = [] → ∀ cv : Int, minC v = ECost.fin cv →
      ∃ e ∈ pq, e.2.1 = v ∧ e.1 = cv) →
    (∀ v, paths' v ≠ [] → v ≠ u → ∀ vw w, link_cost net v vw = some w →
      minC vw ≤ (minC v).addInt w) →
    Walk net start u path c →
    List.Pairwise qle (dijkstra_relax c path nbrs pq minC).1 ∧
    (∀ e ∈ (dijkstra_relax c path nbrs pq minC).1, e.2.1 ∈ dkeys net.routers ∧
      Walk net start e.2.1 (e.2.2 ++ [e.2.1]) e.1 ∧
      (dijkstra_relax c path nbrs pq minC).2 e.2.1 ≤ ECost.fin e.1) ∧
    (∀ e ∈ (dijkstra_relax c path nbrs pq minC).1, c ≤ e.1) ∧
    (∀ v, paths' v ≠ [] → ∃ cv : Int,
      (dijkstra_relax c path nbrs pq minC).2 v = ECost.fin cv ∧
      Walk net start v (paths' v) cv ∧ (∀ q c', Walk net start v q c' → cv ≤ c') ∧
      table' v = (some (next_hop_of start (paths' v)), ECost.fin cv)) ∧
    (∀ v, paths' v ≠ [] → (dijkstra_relax c path nbrs pq minC).2 v ≤ ECost.fin c) ∧
    (∀ v, paths' v = [] → ∀ cv : Int,
      (dijkstra_relax c path nbrs pq minC).2 v = ECost.fin cv →
      ∃ e ∈ (dijkstra_relax c path nbrs pq minC).1, e.2.1 = v ∧ e.1 = cv) ∧
    (∀ v, paths' v ≠ [] → v ≠ u → ∀ vw w, link_cost net v vw = some w →
      (dijkstra_relax c path nbrs pq minC).2 vw ≤
        ((dijkstra_relax c path nbrs pq minC).2 v).addInt w) ∧
    (∀ n ∈ nbrs, (dijkstra_relax c path nbrs pq minC).2 n.1 ≤ ECost.fin (c + n.2)) ∧
    (dijkstra_relax c path nbrs pq minC).1.length ≤ pq.length + nbrs.length := by
  intro nbrs
  induction nbrs with
  | nil =>
    intro pq minC _ hsorted hqsound hclb hminCu hsettled hdomc hbest hfront _
    refine ⟨hsorted, hqsound, hclb, hsettled, hdomc, hbest, hfront, ?_, ?_⟩
    · intro n hn
      simp at hn
    · simp [dijkstra_relax]
  | cons n nbrs' ih =>
    intro pq minC hlinks hsorted hqsound hclb hminCu hsettled hdomc hbest hfront hwalku
    have hlinkn : link_cost net u n.1 = some n.2 := hlinks n (List.mem_cons_self _ _)
    have hwalkpath : Walk net start n.1 (path ++ [n.1]) (c + n.2) :=
      hwalku.snoc hlinkn
    have hstep : dijkstra_relax c path (n :: nbrs') pq minC =
        dijkstra_relax c path nbrs'
          (if ECost.fin (c + n.2) < minC n.1 then qpush (c + n.2, n.1, path) pq else pq)
          (if ECost.fin (c + n.2) < minC n.1 then
            Function.update minC n.1 (ECost.fin (c + n.2)) else minC) := by
      unfold dijkstra_relax
      rw [List.foldl_cons]
      split <;> rfl
    rw [hstep]
    by_cases himp : ECost.fin (c + n.2) < minC n.1
    · rw [if_pos himp, if_pos himp]
      have hnunsettled : paths' n.1 = [] := by
        by_contra hns
        obtain ⟨cv, hcv, _, hmin, _⟩ := hsettled n.1 hns
        have := hmin _ _ hwalkpath
        rw [hcv] at himp
        simp only [ECost.fin_lt_fin] at himp
        omega
      have hnne : n.1 ≠ u := by
        intro hc
        rw [hc, hminCu] at himp
        simp only [ECost.fin_lt_fin] at himp
        have hn2 := no_neg_edges_nonneg hneg hlinkn
        omega
      obtain ⟨h1, h2, h3, h4, h5, h6, h7, h8, h9⟩ := ih (qpush (c + n.2, n.1, path) pq)
        (Function.update minC n.1 (ECost.fin (c + n.2)))
        (fun n' hn' => hlinks n' (List.mem_cons_of_mem _ hn'))
        (by
          unfold qpush
          exact List.Sorted.orderedInsert _ _ hsorted)
        (by
          intro e he
          rcases (List.mem_orderedInsert qle).mp he with rfl | he
          · refine ⟨(link_cost_endpoints hwf hlinkn).2, hwalkpath, ?_⟩
            rw [Function.update_apply, if_pos rfl]
            exact ECost.le_refl _
          · obtain ⟨hm, hw, hle⟩ := hqsound e he
            refine ⟨hm, hw, ?_⟩
            rw [Function.update_apply]
            split
            · next heq =>
              exact ECost.le_trans (ECost.le_of_lt himp) (heq ▸ hle)
            · exact hle)
        (by
          intro e he
          rcases (List.mem_orderedInsert qle).mp he with rfl | he
          · have hn2 := no_neg_edges_nonneg hneg hlinkn
            show c ≤ c + n.2
            omega
          · exact hclb e he)
        (by rw [Function.update_apply, if_neg (fun hc : u = n.1 => hnne hc.symm)]
            exact hminCu)
        (by
          intro v hv
          obtain ⟨cv, hcv, hwv, hminv, htv⟩ := hsettled v hv
          refine ⟨cv, ?_, hwv, hminv, htv⟩
          rw [Function.update_apply, if_neg (fun hc : v = n.1 => hv (hc.symm ▸ hnunsettled))]
          exact hcv)
        (by
          intro v hv
          rw [Function.update_apply, if_neg (fun hc : v = n.1 => hv (hc.symm ▸ hnunsettled))]
          exact hdomc v hv)
        (by
          intro v hv cv hcv
          rw [Function.update_apply] at hcv
          split at hcv
          · next heq =>
            injection hcv with hcv
            exact ⟨(c + n.2, n.1, path), (List.mem_orderedInsert qle).mpr (Or.inl rfl),
              heq.symm, hcv⟩
          · obtain ⟨e, hemem, he1, he2⟩ := hbest v hv cv hcv
            exact ⟨e, (List.mem_orderedInsert qle).mpr (Or.inr hemem), he1, he2⟩)
        (by
          intro v hv hvne vw w hlw
          have h1 : Function.update minC n.1 (ECost.fin (c + n.2)) v = minC v := by
            rw [Function.update_apply,
              if_neg (fun hc : v = n.1 => hv (hc.symm ▸ hnunsettled))]
          rw [h1, Function.update_apply]
          split
          · next heq =>
            exact ECost.le_trans (ECost.le_of_lt (heq.symm ▸ himp)) (hfront v hv hvne vw w hlw)
          · exact hfront v hv hvne vw w hlw)
        hwalku
      refine ⟨h1, h2, h3, h4, h5, h6, h7, ?_, ?_⟩
      · intro n' hn'
        rcases List.mem_cons.mp hn' with rfl | hn'
        · refine ECost.le_trans (dijkstra_relax_minC_mono nbrs' _ _ n'.1) ?_
          rw [Function.update_apply, if_pos rfl]
          exact ECost.le_refl _
        · exact h8 n' hn'
      · rw [length_qpush] at h9
        simp only [List.length_cons]
        omega
    · rw [if_neg himp, if_neg himp]
      obtain ⟨h1, h2, h3, h4, h5, h6, h7, h8, h9⟩ := ih pq minC
        (fun n' hn' => hlinks n' (List.mem_cons_of_mem _ hn'))
        hsorted hqsound hclb hminCu hsettled hdomc hbest hfront hwalku
      refine ⟨h1, h2, h3, h4, h5, h6, h7, ?_, ?_⟩
      · intro n' hn'
        rcases List.mem_cons.mp hn' with rfl | hn'
        · exact ECost.le_trans (dijkstra_relax_minC_mono nbrs' pq minC n'.1)
            (ECost.le_of_not_lt himp)
        · exact h8 n' hn'
      · simp only [List.length_cons]
        omega

theorem dinv_links {net : Network} (hwf : NetWf net) (u : String) :
    ∀ n ∈ (dlookup u net.adjacency_list).getD [], link_cost net u n.1 = some n.2 := by
  intro n hn
  cases hadj : dlookup u net.adjacency_list with
  | none => rw [hadj] at hn; simp at hn
  | some l =>
    rw [hadj] at hn
    simp only [Option.getD_some] at hn
    have hnd := hwf.nbr_nodup (u, l) (dlookup_mem hadj)
    unfold link_cost
    rw [hadj]
    simp only [Option.some_bind]
    exact dlookup_of_mem_nodup (by exact hn) hnd

theorem mem_nbrs_of_link_cost {net : Network} {u vw : String} {w : Int}
    (h : link_cost net u vw = some w) :
    (vw, w) ∈ (dlookup u net.adjacency_list).getD [] := by
  unfold link_cost at h
  cases hadj : dlookup u net.adjacency_list with
  | none => rw [hadj] at h; simp at h
  | some l =>
    rw [hadj] at h
    simp only [Option.some_bind] at h
    simp only [Option.getD_some]
    exact dlookup_mem h

theorem dijkstra_loop_cons (net : Network) (start : String) (fuel : Nat)
    (e : QEntry) (pq : List QEntry) (minC : String → ECost)
    (paths : String → List String) (table : String → Option String × ECost) :
    dijkstra_loop net start (fuel + 1) (e :: pq) minC paths table =
    if minC e.2.1 < ECost.fin e.1 then
      dijkstra_loop net start fuel pq minC paths table
    else
      dijkstra_loop net start fuel
        (dijkstra_relax e.1 (e.2.2 ++ [e.2.1])
          ((dlookup e.2.1 net.adjacency_list).getD []) pq minC).1
        (dijkstra_relax e.1 (e.2.2 ++ [e.2.1])
          ((dlookup e.2.1 net.adjacency_list).getD []) pq minC).2
        (Function.update paths e.2.1 (e.2.2 ++ [e.2.1]))
        (Function.update table e.2.1
          (some (next_hop_of start (e.2.2 ++ [e.2.1])), ECost.fin e.1)) := rfl

theorem dijkstra_loop_spec {net : Network} {start : String} (hwf : NetWf net)
    (hneg : has_negative_edges net = false) :
    ∀ (fuel : Nat) (pq : List QEntry) (minC : String → ECost)
      (paths : String → List String) (table : String → Option String × ECost),
    DInv net start pq minC paths table →
    d_phi net pq paths ≤ fuel →
    ∃ minC', DInv net start [] minC'
      (dijkstra_loop net start fuel pq minC paths table).1
      (dijkstra_loop net start fuel pq minC paths table).2 := by
  intro fuel
  induction fuel with
  | zero =>
    intro pq minC paths table inv hphi
    simp only [d_phi, Nat.le_zero] at hphi
    have hlen : pq.length = 0 := by omega
    have hnil := List.length_eq_zero.mp hlen
    subst hnil
    exact ⟨minC, inv⟩
  | succ fuel ih =>
    intro pq minC paths table inv hphi
    cases pq with
    | nil => exact ⟨minC, inv⟩
    | cons e pq =>
      rw [dijkstra_loop_cons]
      by_cases hstale : minC e.2.1 < ECost.fin e.1
      · rw [if_pos hstale]
        have hstart : paths start ≠ [] := by
          intro hs
          obtain ⟨hpq, hm0, -⟩ := inv.start_unsettled hs
          simp only [List.cons.injEq] at hpq
          simp only [hpq.1, hm0] at hstale
          exact ECost.lt_irrefl hstale
        refine ih pq minC paths table
          ⟨(List.pairwise_cons.mp inv.sorted).2,
            fun e' he' => inv.qsound e' (List.mem_cons_of_mem _ he'),
            inv.settled_spec, ?_,
            fun v hv e' he' => inv.dominated v hv e' (List.mem_cons_of_mem _ he'),
            inv.frontier, inv.unsettled_table, fun hs => absurd hs hstart⟩ ?_
        · intro v hv cv hcv
          obtain ⟨e', he', h1, h2⟩ := inv.unsettled_best v hv cv hcv
          rcases List.mem_cons.mp he' with rfl | he'
          · exfalso
            rw [h1, h2, hcv] at hstale
            exact ECost.lt_irrefl hstale
          · exact ⟨e', he', h1, h2⟩
        · simp only [d_phi, List.length_cons] at hphi ⊢
          omega
      · rw [if_neg hstale]
        obtain ⟨hmem_u, hwalk_e, hle_u⟩ := inv.qsound e (List.mem_cons_self _ _)
        have hlinks := dinv_links hwf e.2.1
        have hsorted_t := (List.pairwise_cons.mp inv.sorted).2
        have hqsound_t : ∀ e' ∈ pq, e'.2.1 ∈ dkeys net.routers ∧
            Walk net start e'.2.1 (e'.2.2 ++ [e'.2.1]) e'.1 ∧
            minC e'.2.1 ≤ ECost.fin e'.1 :=
          fun e' he' => inv.qsound e' (List.mem_cons_of_mem _ he')
        have hclb : ∀ e' ∈ pq, e.1 ≤ e'.1 :=
          fun e' he' => sorted_head_min inv.sorted e' (List.mem_cons_of_mem _ he')
        have hne_path : e.2.2 ++ [e.2.1] ≠ [] := by simp
        by_cases hu : paths e.2.1 = []
        · have hminCu : minC e.2.1 = ECost.fin e.1 :=
            ECost.le_antisymm hle_u (ECost.le_of_not_lt hstale)
          have hmin : ∀ q c', Walk net start e.2.1 q c' → e.1 ≤ c' := by
            intro q c' hwq
            obtain ⟨e', he', hle⟩ := dcover hneg inv hwq hu
            have h2 := sorted_head_min inv.sorted e' he'
            omega
          have hsettled' : ∀ v, Function.update paths e.2.1 (e.2.2 ++ [e.2.1]) v ≠ [] →
              ∃ cv : Int, minC v = ECost.fin cv ∧
              Walk net start v (Function.update paths e.2.1 (e.2.2 ++ [e.2.1]) v) cv ∧
              (∀ q c', Walk net start v q c' → cv ≤ c') ∧
              Function.update table e.2.1
                (some (next_hop_of start (e.2.2 ++ [e.2.1])), ECost.fin e.1) v =
                (some (next_hop_of start
                  (Function.update paths e.2.1 (e.2.2 ++ [e.2.1]) v)), ECost.fin cv) := by
            intro v hv
            by_cases hveq : v = e.2.1
            · subst hveq
              rw [Function.update_same, Function.update_same]
              exact ⟨e.1, hminCu, hwalk_e, hmin, rfl⟩
            · rw [Function.update_noteq hveq] at hv
              rw [Function.update_noteq hveq, Function.update_noteq hveq]
              exact inv.settled_spec v hv
          have hdomc' : ∀ v, Function.update paths e.2.1 (e.2.2 ++ [e.2.1]) v ≠ [] →
              minC v ≤ ECost.fin e.1 := by
            intro v hv
            by_cases hveq : v = e.2.1
            · subst hveq
              rw [hminCu]
              exact ECost.le_refl _
            · rw [Function.update_noteq hveq] at hv
              exact inv.dominated v hv e (List.mem_cons_self _ _)
          have hbest' : ∀ v, Function.update paths e.2.1 (e.2.2 ++ [e.2.1]) v = [] →
              ∀ cv : Int, minC v = ECost.fin cv →
              ∃ e' ∈ pq, e'.2.1 = v ∧ e'.1 = cv := by
            intro v hv cv hcv
            have hvne : v ≠ e.2.1 := by
              intro h
              rw [h, Function.update_same] at hv
              exact hne_path hv
            rw [Function.update_noteq hvne] at hv
            obtain ⟨e', he', h1, h2⟩ := inv.unsettled_best v hv cv hcv
            rcases List.mem_cons.mp he' with rfl | he'
            · exact absurd h1.symm hvne
            · exact ⟨e', he', h1, h2⟩
          have hfront' : ∀ v, Function.update paths e.2.1 (e.2.2 ++ [e.2.1]) v ≠ [] →
              v ≠ e.2.1 → ∀ vw w, link_cost net v vw = some w →
              minC vw ≤ (minC v).addInt w := by
            intro v hv hvne vw w hlw
            rw [Function.update_noteq hvne] at hv
            exact inv.frontier v hv vw w hlw
          obtain ⟨h1, h2, h3, h4, h5, h6, h7, h8, h9⟩ :=
            @dijkstra_relax_spec net start e.2.1 e.1 (e.2.2 ++ [e.2.1]) hwf hneg
              (Function.update paths e.2.1 (e.2.2 ++ [e.2.1]))
              (Function.update table e.2.1
                (some (next_hop_of start (e.2.2 ++ [e.2.1])), ECost.fin e.1))
              (by rw [Function.update_same]; exact hne_path)
              ((dlookup e.2.1 net.adjacency_list).getD []) pq minC
              hlinks hsorted_t hqsound_t hclb hminCu hsettled' hdomc' hbest' hfront' hwalk_e
          have hstu : (dijkstra_relax e.1 (e.2.2 ++ [e.2.1])
              ((dlookup e.2.1 net.adjacency_list).getD []) pq minC).2 e.2.1 =
              ECost.fin e.1 := by
            obtain ⟨cv, hcv, hwv, hminv, -⟩ := h4 e.2.1
              (by rw [Function.update_same]; exact hne_path)
            rw [Function.update_same] at hwv
            have ha : cv ≤ e.1 := hminv _ _ hwalk_e
            have hb : e.1 ≤ cv := hmin _ _ hwv
            rw [hcv]
            have hceq : cv = e.1 := by omega
            rw [hceq]
          refine ih _ _ _ _ ⟨h1, h2, h4, h6, ?_, ?_, ?_, ?_⟩ ?_
          · intro v hv e' he'
            refine ECost.le_trans (h5 v hv) ?_
            simp only [ECost.fin_le_fin]
            exact h3 e' he'
          · intro v hv vw w hlw
            by_cases hveq : v = e.2.1
            · subst hveq
              rw [hstu]
              exact h8 (vw, w) (mem_nbrs_of_link_cost hlw)
            · exact h7 v hv hveq vw w hlw
          · intro v hv
            have hvne : v ≠ e.2.1 := by
              intro h
              rw [h, Function.update_same] at hv
              exact hne_path hv
            rw [Function.update_noteq hvne] at hv
            rw [Function.update_noteq hvne]
            exact inv.unsettled_table v hv
          · intro hs
            exfalso
            have hsne : start ≠ e.2.1 := by
              intro h
              rw [h, Function.update_same] at hs
              exact hne_path hs
            rw [Function.update_noteq hsne] at hs
            obtain ⟨hpq, -, -⟩ := inv.start_unsettled hs
            simp only [List.cons.injEq] at hpq
            have he21 : e.2.1 = start := by rw [hpq.1]
            exact hsne he21.symm
          · have hp1 : (fun v => decide (paths v = [])) e.2.1 = true := by
              simp [hu]
            have hp2 : (fun v => decide (Function.update paths e.2.1
                (e.2.2 ++ [e.2.1]) v = [])) e.2.1 = false := by
              simp [Function.update_same, hne_path]
            have hother : ∀ v, v ≠ e.2.1 →
                (fun v => decide (Function.update paths e.2.1
                  (e.2.2 ++ [e.2.1]) v = [])) v =
                (fun v => decide (paths v = [])) v := by
              intro v hv
              simp only
              rw [Function.update_noteq hv]
            have hcount := @countP_settle (dkeys net.routers) e.2.1 hmem_u
              hwf.routers_nodup
              (fun v => decide (paths v = []))
              (fun v => decide (Function.update paths e.2.1 (e.2.2 ++ [e.2.1]) v = []))
              hp1 hp2 hother
            have hnbrs_le : ((dlookup e.2.1 net.adjacency_list).getD []).length ≤
                adj_size net := by
              cases hadj : dlookup e.2.1 net.adjacency_list with
              | none => simp
              | some l =>
                simp only [Option.getD_some]
                exact nbrs_length_le_adj_size hadj
            simp only [d_phi, List.length_cons] at hphi ⊢
            rw [← hcount] at hphi
            have hexp : ((dkeys net.routers).countP (fun v =>
                decide (Function.update paths e.2.1 (e.2.2 ++ [e.2.1]) v = [])) + 1) *
                (adj_size net + 1) =
                (dkeys net.routers).countP (fun v =>
                decide (Function.update paths e.2.1 (e.2.2 ++ [e.2.1]) v = [])) *
                (adj_size net + 1) + (adj_size net + 1) := by ring
            omega
        · obtain ⟨cu, hcu, hwu, hminu, htu⟩ := inv.settled_spec e.2.1 hu
          have hcue : cu = e.1 := by
            have ha : cu ≤ e.1 := by
              rw [hcu] at hle_u
              simpa using hle_u
            have hb : e.1 ≤ cu := by
              rw [hcu] at hstale
              simp only [ECost.fin_lt_fin] at hstale
              omega
            omega
          subst hcue
          have hnoop : dijkstra_relax e.1 (e.2.2 ++ [e.2.1])
              ((dlookup e.2.1 net.adjacency_list).getD []) pq minC = (pq, minC) := by
            apply dijkstra_relax_noop
            intro n hn hlt
            have hf := inv.frontier e.2.1 hu n.1 n.2 (hlinks n hn)
            rw [hcu] at hf
            simp only [ECost.addInt] at hf
            exact ECost.not_lt_of_le hf hlt
          rw [hnoop]
          refine ih pq minC _ _ ⟨hsorted_t, hqsound_t, ?_, ?_, ?_, ?_, ?_, ?_⟩ ?_
          · intro v hv
            by_cases hveq : v = e.2.1
            · subst hveq
              rw [Function.update_same, Function.update_same]
              exact ⟨e.1, hcu, hwalk_e, hminu, rfl⟩
            · rw [Function.update_noteq hveq] at hv
              rw [Function.update_noteq hveq, Function.update_noteq hveq]
              exact inv.settled_spec v hv
          · intro v hv cv hcv
            have hvne : v ≠ e.2.1 := by
              intro h
              rw [h, Function.update_same] at hv
              exact hne_path hv
            rw [Function.update_noteq hvne] at hv
            obtain ⟨e', he', h1', h2'⟩ := inv.unsettled_best v hv cv hcv
            rcases List.mem_cons.mp he' with rfl | he'
            · exact absurd h1'.symm hvne
            · exact ⟨e', he', h1', h2'⟩
          · intro v hv e' he'
            by_cases hveq : v = e.2.1
            · subst hveq
              rw [hcu]
              simp only [ECost.fin_le_fin]
              exact hclb e' he'
            · rw [Function.update_noteq hveq] at hv
              exact inv.dominated v hv e' (List.mem_cons_of_mem _ he')
          · intro v hv vw w hlw
            by_cases hveq : v = e.2.1
            · subst hveq
              exact inv.frontier e.2.1 hu vw w hlw
            · rw [Function.update_noteq hveq] at hv
              exact inv.frontier v hv vw w hlw
          · intro v hv
            have hvne : v ≠ e.2.1 := by
              intro h
              rw [h, Function.update_same] at hv
              exact hne_path hv
            rw [Function.update_noteq hvne] at hv
            rw [Function.update_noteq hvne]
            exact inv.unsettled_table v hv
          · intro hs
            exfalso
            have hsne : start ≠ e.2.1 := by
              intro h
              rw [h, Function.update_same] at hs
              exact hne_path hs
            rw [Function.update_noteq hsne] at hs
            obtain ⟨-, -, hall⟩ := inv.start_unsettled hs
            exact hu (hall e.2.1)
          · have hcongr : (dkeys net.routers).countP
                (fun v => decide (Function.update paths e.2.1
                  (e.2.2 ++ [e.2.1]) v = [])) =
                (dkeys net.routers).countP (fun v => decide (paths v = [])) := by
              apply List.countP_congr
              intro v _
              by_cases hveq : v = e.2.1
              · subst hveq
                simp [Function.update_same, hne_path, hu]
              · simp [Function.update_noteq hveq]
            simp only [d_phi, List.length_cons] at hphi ⊢
            rw [hcongr]
            omega

theorem dinv_final {net : Network} {start : String}
    (hneg : has_negative_edges net = false) {minC : String → ECost}
    {paths : String → List String} {table : String → Option String × ECost}
    (inv : DInv net start [] minC paths table) :
    paths start ≠ [] ∧
    (∀ v, ReachableFrom net start v → paths v ≠ []) ∧
    (∀ v, paths v ≠ [] → ∃ c : Int, Walk net start v (paths v) c ∧
      IsMinCost net start v c ∧
      table v = (some (next_hop_of start (paths v)), ECost.fin c)) ∧
    (∀ v, paths v = [] → ¬ ReachableFrom net start v ∧
      table v = (none, ECost.inf)) := by
  have hstart : paths start ≠ [] := by
    intro hs
    obtain ⟨hpq, -, -⟩ := inv.start_unsettled hs
    simp at hpq
  refine ⟨hstart, ?_, ?_, ?_⟩
  · intro v hr hv
    obtain ⟨q, c, hw⟩ := hr
    obtain ⟨e', he', -⟩ := dcover hneg inv hw hv
    simp at he'
  · intro v hv
    obtain ⟨c, hc, hw, hm, ht⟩ := inv.settled_spec v hv
    exact ⟨c, hw, ⟨⟨paths v, hw⟩, fun p c' h => hm p c' h⟩, ht⟩
  · intro v hv
    constructor
    · rintro ⟨q, c, hw⟩
      obtain ⟨e', he', -⟩ := dcover hneg inv hw hv
      simp at he'
    · have h := inv.unsettled_table v hv
      rw [if_neg] at h
      · exact h
      · intro hc
        rw [hc] at hv
        exact hstart hv

/-- C1: on a graph with no negative edge and an existing source, a
successful dijkstra run returns, for every router, a minimum-cost path from
the source (empty exactly for unreachable routers), and rewrites the
source's routing table so reachable destinations map to (second node of the
path, minimum cost) and unreachable ones to (none, infinity); concretely,
on routers A,B,C,D with links A->B(1), B->C(2), A->C(5), C->D(1), dijkstra
from A yields the path A,B,C,D for D and table entries D: (B, 4) and
C: (B, 3). -/
theorem C1_dijkstra_routing_table :
    (∀ (net : Network) (start : String), NetWf net →
      has_negative_edges net = false → (dlookup start net.routers).isSome →
      ∃ m tbl, (dijkstra start net).1 = some m ∧
        dlookup start (dijkstra start net).2.routers = some tbl ∧
        ∀ v ∈ dkeys net.routers,
          (ReachableFrom net start v →
            ∃ p c, dlookup v m = some p ∧
              dlookup v tbl = some (some (next_hop_of start p), ECost.fin c) ∧
              Walk net start v p c ∧ IsMinCost net start v c) ∧
          (¬ ReachableFrom net start v →
            dlookup v m = some [] ∧ dlookup v tbl = some (none, ECost.inf))) ∧
    ((dijkstra "A" netScen).1 =
      some [("A", ["A"]), ("B", ["A", "B"]), ("C", ["A", "B", "C"]),
        ("D", ["A", "B", "C", "D"])] ∧
      ∃ tbl, dlookup "A" (dijkstra "A" netScen).2.routers = some tbl ∧
        dlookup "D" tbl = some (some "B", ECost.fin 4) ∧
        dlookup "C" tbl = some (some "B", ECost.fin 3)) := by
  constructor
  · intro net start hwf hneg hstart
    have hsnone : ¬ (dlookup start net.routers).isNone := by
      simp only [Option.isNone_iff_eq_none]
      intro hc
      rw [hc] at hstart
      simp at hstart
    have hsmem : start ∈ dkeys net.routers := (dlookup_isSome_iff _ _).mp hstart
    unfold dijkstra
    rw [if_neg hsnone, if_neg (by rw [hneg]; exact Bool.false_ne_true)]
    dsimp only
    obtain ⟨minC', inv⟩ := dijkstra_loop_spec hwf hneg
      ((dkeys net.routers).length * (adj_size net + 1) + 1) [(0, start, [])]
      (fun r => if r = start then ECost.fin 0 else ECost.inf) (fun _ => [])
      (fun r => if r = start then (some start, ECost.fin 0) else (none, ECost.inf))
      (dinv_init hsmem)
      (by simp [d_phi, List.countP_true])
    obtain ⟨hst, hreach, hsettled, hunset⟩ := dinv_final hneg inv
    refine ⟨(dkeys net.routers).map (fun r => (r, (dijkstra_loop net start
        ((dkeys net.routers).length * (adj_size net + 1) + 1) [(0, start, [])]
        (fun r => if r = start then ECost.fin 0 else ECost.inf) (fun _ => [])
        (fun r => if r = start then (some start, ECost.fin 0)
          else (none, ECost.inf))).1 r)),
      (dkeys net.routers).map (fun r => (r, (dijkstra_loop net start
        ((dkeys net.routers).length * (adj_size net + 1) + 1) [(0, start, [])]
        (fun r => if r = start then ECost.fin 0 else ECost.inf) (fun _ => [])
        (fun r => if r = start then (some start, ECost.fin 0)
          else (none, ECost.inf))).2 r)), rfl, ?_, ?_⟩
    · rw [dlookup_dinsert, if_pos rfl]
    · intro v hv
      constructor
      · intro hr
        obtain ⟨c, hw, hmc, ht⟩ := hsettled v (hreach v hr)
        refine ⟨_, c, dlookup_map_pair _ hv, ?_, hw, hmc⟩
        rw [dlookup_map_pair _ hv, ht]
      · intro hnr
        have hv0 : (dijkstra_loop net start
            ((dkeys net.routers).length * (adj_size net + 1) + 1) [(0, start, [])]
            (fun r => if r = start then ECost.fin 0 else ECost.inf) (fun _ => [])
            (fun r => if r = start then (some start, ECost.fin 0)
              else (none, ECost.inf))).1 v = [] := by
          by_contra h
          obtain ⟨c, hw, -, -⟩ := hsettled v h
          exact hnr ⟨_, c, hw⟩
        obtain ⟨-, ht⟩ := hunset v hv0
        constructor
        · rw [dlookup_map_pair _ hv, hv0]
        · rw [dlookup_map_pair _ hv, ht]
  · decide

theorem C1_dijkstra_routing_table_witness :
    (NetWf netScen ∧ has_negative_edges netScen = false ∧
      (dlookup "A" netScen.routers).isSome) ∧
    (∃ m tbl, (dijkstra "A" netScen).1 = some m ∧
      dlookup "A" (dijkstra "A" netScen).2.routers = some tbl ∧
      ∀ v ∈ dkeys netScen.routers,
        (ReachableFrom netScen "A" v →
          ∃ p c, dlookup v m = some p ∧
            dlookup v tbl = some (some (next_hop_of "A" p), ECost.fin c) ∧
            Walk netScen "A" v p c ∧ IsMinCost netScen "A" v c) ∧
        (¬ ReachableFrom netScen "A" v →
          dlookup v m = some [] ∧ dlookup v tbl = some (none, ECost.inf))) :=
  ⟨⟨wf_reachable netScen_reachable, by decide, by decide⟩,
    C1_dijkstra_routing_table.1 netScen "A" (wf_reachable netScen_reachable)
      (by decide) (by decide)⟩

/-! ## Bellman-Ford predecessor chains -/

/-- A predecessor chain: `p` lists the routers strictly after `u` on the
chain from `u` to `v`, each one's stored predecessor being the previous. -/
inductive PredSeg (pred : String → Option String) : String → String → List String → Prop where
  | refl (v : String) : PredSeg pred v v []
  | head {u z v : String} {p : List String} (hz : pred z = some u)
      (ht : PredSeg pred z v p) : PredSeg pred u v (z :: p)

theorem PredSeg.comp {pred : String → Option String} {u m v : String}
    {p1 p2 : List String} (h1 : PredSeg pred u m p1) (h2 : PredSeg pred m v p2) :
    PredSeg pred u v (p1 ++ p2) := by
  induction h1 with
  | refl _ => simpa using h2
  | head hz ht ih => exact PredSeg.head hz (ih h2)

theorem PredSeg.stable {pred pred' : String → Option String} {u v : String}
    {p : List String} (h : PredSeg pred u v p)
    (hagree : ∀ z ∈ p, pred' z = pred z) : PredSeg pred' u v p := by
  induction h with
  | refl _ => exact PredSeg.refl _
  | head hz ht ih =>
    refine PredSeg.head ?_ (ih fun z hz' => hagree z (List.mem_cons_of_mem _ hz'))
    rw [hagree _ (List.mem_cons_self _ _)]
    exact hz

theorem PredSeg.mem_split {pred : String → Option String} {u v b : String}
    {p : List String} (h : PredSeg pred u v p) (hb : b ∈ p) :
    ∃ p1 p2, p = p1 ++ b :: p2 ∧ PredSeg pred u b (p1 ++ [b]) ∧
      PredSeg pred b v p2 := by
  induction h with
  | refl _ => simp at hb
  | head hz ht ih =>
    rename_i u z v p
    rcases List.mem_cons.mp hb with rfl | hb
    · exact ⟨[], p, rfl, PredSeg.head hz (PredSeg.refl _), ht⟩
    · obtain ⟨p1, p2, rfl, hseg1, hseg2⟩ := ih hb
      exact ⟨z :: p1, p2, rfl, PredSeg.head hz hseg1, hseg2⟩

/-- The `pred_edge` property of a relaxation state. -/
def BFPredEdge (net : Network) (st : (String → ECost) × (String → Option String)) : Prop :=
  ∀ v u, st.2 v = some u → ∃ w cu cv, link_cost net u v = some w ∧
    st.1 u = ECost.fin cu ∧ st.1 v = ECost.fin cv ∧ cu + w ≤ cv

theorem predSeg_bounds {net : Network} (hneg : has_negative_edges net = false)
    {st : (String → ECost) × (String → Option String)} (hpe : BFPredEdge net st) :
    ∀ {x y : String} {p : List String}, PredSeg st.2 x y p →
    ∀ cy, st.1 y = ECost.fin cy →
    ∃ cx, st.1 x = ECost.fin cx ∧ cx ≤ cy ∧
      ∀ z ∈ p, ∃ cz, st.1 z = ECost.fin cz ∧ cx ≤ cz ∧ cz ≤ cy := by
  intro x y p h
  induction h with
  | refl _ =>
    intro cy hcy
    exact ⟨cy, hcy, le_refl _, by simp⟩
  | head hz ht ih =>
    rename_i x z y p
    intro cy hcy
    obtain ⟨cz, hcz, hczy, helem⟩ := ih cy hcy
    obtain ⟨w, cu, cv, hl, hu, hv, hle⟩ := hpe z x hz
    have hw := no_neg_edges_nonneg hneg hl
    rw [hcz] at hv
    injection hv with hv
    subst hv
    refine ⟨cu, hu, by omega, ?_⟩
    intro z' hz'
    rcases List.mem_cons.mp hz' with rfl | hz'
    · exact ⟨cz, hcz, by omega, hczy⟩
    · obtain ⟨cz', h1, h2, h3⟩ := helem z' hz'
      exact ⟨cz', h1, by omega, h3⟩

theorem predSeg_walk {net : Network}
    {st : (String → ECost) × (String → Option String)} (hpe : BFPredEdge net st) :
    ∀ {x y : String} {p : List String}, PredSeg st.2 x y p →
    ∀ cx cy, st.1 x = ECost.fin cx → st.1 y = ECost.fin cy →
    ∃ cw, Walk net x y (x :: p) cw ∧ cw ≤ cy - cx := by
  intro x y p h
  induction h with
  | refl _ =>
    intro cx cy hcx hcy
    rw [hcx] at hcy
    injection hcy with hcy
    exact ⟨0, Walk.single _, by omega⟩
  | head hz ht ih =>
    rename_i x z y p
    intro cx cy hcx hcy
    obtain ⟨w, cu, cv, hl, hu, hv, hle⟩ := hpe z x hz
    rw [hcx] at hu
    injection hu with hu
    subst hu
    obtain ⟨cw, hwalk, hcwle⟩ := ih cv cy hv hcy
    exact ⟨w + cw, Walk.cons w hl hwalk, by omega⟩

/-- Invariant of the (`min_costs`, `predecessors`) state throughout the
relaxation phase, on a graph with no negative edge. -/
structure BFInv (net : Network) (start : String)
    (st : (String → ECost) × (String → Option String)) : Prop where
  sound : BFSound net start st
  start_le : st.1 start ≤ ECost.fin 0
  pred_start : st.2 start = none
  pred_edge : BFPredEdge net st
  chain : ∀ v cv, st.1 v = ECost.fin cv →
    ∃ p, PredSeg st.2 start v p ∧ (start :: p).Nodup

theorem bfinv_init (net : Network) (start : String) :
    BFInv net start (bf_init start) := by
  refine ⟨bf_init_sound net start, ?_, rfl, ?_, ?_⟩
  · unfold bf_init
    simp
  · intro v u hvu
    exact Option.noConfusion hvu
  · intro v cv hv
    unfold bf_init at hv
    simp only at hv
    split at hv
    · next h =>
      subst h
      exact ⟨[], PredSeg.refl _, by simp⟩
    · exact absurd hv (by simp)

theorem bfinv_relax {net : Network} {start : String}
    (hneg : has_negative_edges net = false)
    {st : (String → ECost) × (String → Option String)}
    {e : String × String × Int} (he : link_cost net e.1 e.2.1 = some e.2.2)
    (inv : BFInv net start st) : BFInv net start (bf_relax st e) := by
  unfold bf_relax
  split
  · exact inv
  · next ca hu =>
    split
    · next hlt =>
      have hw : 0 ≤ e.2.2 := no_neg_edges_nonneg hneg he
      have hca : 0 ≤ ca := by
        obtain ⟨p, hp⟩ := inv.sound e.1 ca hu
        exact walk_cost_nonneg hneg hp
      have hbstart : e.2.1 ≠ start := by
        intro hb
        rw [hb] at hlt
        cases hst : st.1 start with
        | inf =>
          have := inv.start_le
          rw [hst] at this
          exact ECost.not_inf_le_fin this
        | fin cs =>
          have h0 := inv.start_le
          rw [hst] at hlt h0
          simp only [ECost.fin_lt_fin, ECost.fin_le_fin] at hlt h0
          omega
      have hba : e.2.1 ≠ e.1 := by
        intro hb
        rw [hb, hu] at hlt
        simp only [ECost.fin_lt_fin] at hlt
        omega
      obtain ⟨pa, hsega, hnda⟩ := inv.chain e.1 ca hu
      have hbnotin : e.2.1 ∉ start :: pa := by
        intro hb
        obtain ⟨cb0, hcb0, hble⟩ : ∃ cb0, st.1 e.2.1 = ECost.fin cb0 ∧ cb0 ≤ ca := by
          obtain ⟨cx, hcx, hcxle, helem⟩ :=
            predSeg_bounds hneg inv.pred_edge hsega ca hu
          rcases List.mem_cons.mp hb with rfl | hb
          · exact ⟨cx, hcx, hcxle⟩
          · obtain ⟨cz, h1, h2, h3⟩ := helem _ hb
            exact ⟨cz, h1, h3⟩
        rw [hcb0] at hlt
        simp only [ECost.fin_lt_fin] at hlt
        omega
      have hsegb : PredSeg (Function.update st.2 e.2.1 (some e.1)) start e.2.1
          (pa ++ [e.2.1]) := by
        refine PredSeg.comp (hsega.stable ?_)
          (PredSeg.head (Function.update_same _ _ _) (PredSeg.refl _))
        intro z hz
        exact Function.update_noteq
          (fun hc : z = e.2.1 => hbnotin (hc ▸ List.mem_cons_of_mem start hz)) _ _
      have hndb : (start :: (pa ++ [e.2.1])).Nodup := by
        rw [← List.cons_append]
        rw [List.nodup_append]
        refine ⟨hnda, by simp, ?_⟩
        intro x hx
        simp only [List.mem_singleton]
        intro hc
        exact hbnotin (hc ▸ hx)
      refine ⟨?_, ?_, ?_, ?_, ?_⟩
      · intro v cv hv
        dsimp only at hv
        rw [Function.update_apply] at hv
        split at hv
        · next hveq =>
          injection hv with hv
          obtain ⟨p, hp⟩ := inv.sound e.1 ca hu
          subst hveq
          exact ⟨p ++ [e.2.1], hv ▸ hp.snoc he⟩
        · exact inv.sound v cv hv
      · dsimp only
        rw [Function.update_noteq (fun hc => hbstart hc.symm)]
        exact inv.start_le
      · dsimp only
        rw [Function.update_noteq (fun hc => hbstart hc.symm)]
        exact inv.pred_start
      · intro v u hvu
        dsimp only at hvu ⊢
        rw [Function.update_apply] at hvu
        split at hvu
        · next hveq =>
          injection hvu with hvu
          subst hveq
          refine ⟨e.2.2, ca, ca + e.2.2, ?_, ?_, ?_, le_refl _⟩
          · rw [← hvu]
            exact he
          · rw [← hvu, Function.update_noteq (Ne.symm hba)]
            exact hu
          · rw [Function.update_same]
        · next hvne =>
          obtain ⟨w', cu, cv, hl, hu', hv', hle⟩ := inv.pred_edge v u hvu
          by_cases hub : u = e.2.1
          · subst hub
            rw [hu'] at hlt
            simp only [ECost.fin_lt_fin] at hlt
            refine ⟨w', ca + e.2.2, cv, hl, ?_, ?_, by omega⟩
            · rw [Function.update_same]
            · rw [Function.update_noteq hvne]
              exact hv'
          · refine ⟨w', cu, cv, hl, ?_, ?_, hle⟩
            · rw [Function.update_noteq hub]
              exact hu'
            · rw [Function.update_noteq hvne]
              exact hv'
      · intro v cv hv
        dsimp only at hv ⊢
        rw [Function.update_apply] at hv
        split at hv
        · next hveq =>
          subst hveq
          exact ⟨pa ++ [e.2.1], hsegb, hndb⟩
        · next hvne =>
          obtain ⟨p, hseg, hnd⟩ := inv.chain v cv hv
          by_cases hbp : e.2.1 ∈ p
          · obtain ⟨p1, p2, rfl, hseg1, hseg2⟩ := hseg.mem_split hbp
            obtain ⟨cx, hcx, hcxle, helem⟩ :=
              predSeg_bounds hneg inv.pred_edge hseg cv hv
            obtain ⟨cb, hcb, hxb, hbv⟩ := helem e.2.1 hbp
            rw [hcb] at hlt
            simp only [ECost.fin_lt_fin] at hlt
            have hp2nodup : e.2.1 ∉ p2 ∧ p2.Nodup := by
              have h1 : (p1 ++ e.2.1 :: p2).Nodup := (List.nodup_cons.mp hnd).2
              have h2 : (e.2.1 :: p2).Nodup := h1.of_append_right
              exact ⟨(List.nodup_cons.mp h2).1, (List.nodup_cons.mp h2).2⟩
            have hseg2' : PredSeg (Function.update st.2 e.2.1 (some e.1)) e.2.1 v p2 :=
              hseg2.stable (fun z hz =>
                Function.update_noteq (fun hc : z = e.2.1 => hp2nodup.1 (hc ▸ hz)) _ _)
            refine ⟨(pa ++ [e.2.1]) ++ p2, PredSeg.comp hsegb hseg2', ?_⟩
            obtain ⟨cb2, hcb2, hcb2le, helem2⟩ :=
              predSeg_bounds hneg inv.pred_edge hseg2 cv hv
            rw [hcb] at hcb2
            injection hcb2 with hcb2
            subst hcb2
            obtain ⟨cxa, hcxa, hcxale, helema⟩ :=
              predSeg_bounds hneg inv.pred_edge hsega ca hu
            have hz_notin : ∀ z ∈ p2, z ∉ start :: (pa ++ [e.2.1]) := by
              intro z hz hzin
              obtain ⟨cz, hcz, hczge, -⟩ := helem2 z hz
              have hzsmall : ∃ cy, st.1 z = ECost.fin cy ∧ cy ≤ ca := by
                rw [← List.cons_append] at hzin
                rcases List.mem_append.mp hzin with hzin | hzin
                · rcases List.mem_cons.mp hzin with rfl | hzin
                  · exact ⟨cxa, hcxa, hcxale⟩
                  · obtain ⟨cy, h1, h2, h3⟩ := helema z hzin
                    exact ⟨cy, h1, h3⟩
                · rw [List.mem_singleton] at hzin
                  exact absurd (hzin ▸ hz) hp2nodup.1
              obtain ⟨cy, hcy, hcyle⟩ := hzsmall
              rw [hcz] at hcy
              injection hcy with hcy
              omega
            rw [← List.cons_append, List.nodup_append]
            exact ⟨hndb, hp2nodup.2, fun x hx hc => hz_notin x hc hx⟩
          · have hznb : ∀ z ∈ p, z ≠ e.2.1 := fun z hz hc => hbp (hc ▸ hz)
            exact ⟨p, hseg.stable (fun z hz =>
              Function.update_noteq (hznb z hz) _ _), hnd⟩
    · exact inv

theorem bfinv_foldl {net : Network} {start : String}
    (hneg : has_negative_edges net = false) :
    ∀ (l : List (String × String × Int))
      (st : (String → ECost) × (String → Option String)),
    (∀ e ∈ l, link_cost net e.1 e.2.1 = some e.2.2) → BFInv net start st →
    BFInv net start (l.foldl bf_relax st)
  | [], _, _, inv => inv
  | e :: l', st, hl, inv => by
    rw [List.foldl_cons]
    exact bfinv_foldl hneg l' (bf_relax st e)
      (fun e' he' => hl e' (List.mem_cons_of_mem _ he'))
      (bfinv_relax hneg (hl e (List.mem_cons_self _ _)) inv)

theorem bfinv_passes {net : Network} {start : String} (hwf : NetWf net)
    (hneg : has_negative_edges net = false) :
    ∀ (n : Nat) (st : (String → ECost) × (String → Option String)),
    BFInv net start st → BFInv net start (bf_passes (network_edges net) n st)
  | 0, _, inv => inv
  | n + 1, st, inv => by
    unfold bf_passes
    refine bfinv_passes hwf hneg n _ (bfinv_foldl hneg _ _ ?_ inv)
    rintro ⟨u, v, w⟩ he
    exact (mem_network_edges_iff hwf).mp he

/-- A graph without negative edges has no negative cycle anywhere. -/
theorem no_neg_no_cycle {net : Network} (hneg : has_negative_edges net = false)
    (s : String) : ¬ HasNegCycleFrom net s := by
  rintro ⟨x, p, c, q, cq, hw, hq, hlen, hneg'⟩
  have := walk_cost_nonneg hneg hq
  omega

theorem isMinCost_unique {net : Network} {s t : String} {c c' : Int}
    (h : IsMinCost net s t c) (h' : IsMinCost net s t c') : c = c' := by
  obtain ⟨⟨p, hp⟩, hmin⟩ := h
  obtain ⟨⟨p', hp'⟩, hmin'⟩ := h'
  have h1 := hmin p' c' hp'
  have h2 := hmin' p c hp
  omega

/-- On a no-negative-edge graph, the relaxed `min_costs` value of any
reachable router is finite and is the minimum walk cost. -/
theorem bf_minC_is_min {net : Network} {start : String} (hwf : NetWf net)
    (hneg : has_negative_edges net = false) (hstart : start ∈ dkeys net.routers)
    {v : String} (hr : ReachableFrom net start v) :
    ∃ cv, bf_minC net start v = ECost.fin cv ∧ IsMinCost net start v cv := by
  have hnc := no_neg_no_cycle hneg start
  have hbound : ∀ {q : List String} {c2 : Int}, Walk net start v q c2 →
      bf_minC net start v ≤ ECost.fin c2 := by
    intro q c2 hwq
    obtain ⟨q', c2', hwq', hnd', hle'⟩ := walk_to_nodup hnc q.length (le_refl _) hwq
    have hsub : ∀ y ∈ q', y ∈ dkeys net.routers := hwq'.subset hwf hstart
    have hlen : q'.length ≤ (dkeys net.routers).length := (hnd'.subperm hsub).length_le
    have hV : 1 ≤ (dkeys net.routers).length := by
      cases hl : dkeys net.routers with
      | nil => rw [hl] at hstart; simp at hstart
      | cons a l => simp
    have hcomp := bf_passes_complete hwf ((dkeys net.routers).length - 1) hwq'
      (by omega)
    exact ECost.le_trans hcomp (by simpa using hle')
  obtain ⟨q, c0, hw0⟩ := hr
  have hfin := hbound hw0
  cases hm : bf_minC net start v with
  | inf =>
    rw [hm] at hfin
    exact absurd hfin (by simp)
  | fin cv =>
    refine ⟨cv, rfl, ⟨bf_minC_sound hwf v cv hm, ?_⟩⟩
    intro q2 c2 hw2
    have := hbound hw2
    rw [hm] at this
    simpa using this

/-- Decomposition of a predecessor chain from its far end. -/
theorem PredSeg.eq_or_snoc {pred : String → Option String} {u v : String}
    {p : List String} (h : PredSeg pred u v p) :
    (p = [] ∧ u = v) ∨
    ∃ p' m, p = p' ++ [v] ∧ PredSeg pred u m p' ∧ pred v = some m := by
  induction h with
  | refl _ => exact Or.inl ⟨rfl, rfl⟩
  | head hz ht ih =>
    rename_i u z v p
    rcases ih with ⟨rfl, rfl⟩ | ⟨p', m, rfl, hseg, hv⟩
    · exact Or.inr ⟨[], u, rfl, PredSeg.refl _, hz⟩
    · exact Or.inr ⟨z :: p', m, rfl, PredSeg.head hz hseg, hv⟩

/-- The `while current is not None` reconstruction loop, run on a chain of
predecessors rooted at a predecessor-free router, returns exactly the chain
(the cycle guard never fires and the fuel suffices). -/
theorem bf_reconstruct_seg {pred : String → Option String} :
    ∀ (n : Nat) {p : List String} {u v : String}, p.length ≤ n →
    PredSeg pred u v p → pred u = none →
    ∀ (acc : List String) (fuel : Nat), p.length + 1 ≤ fuel →
    (u :: p).Nodup → (∀ x ∈ u :: p, x ∉ acc) →
    bf_reconstruct pred fuel (some v) acc = u :: (p ++ acc) := by
  intro n
  induction n with
  | zero =>
    intro p u v hlen hseg hu acc fuel hfuel hnd hacc
    have hp : p = [] := List.length_eq_zero.mp (by omega)
    subst hp
    rcases hseg.eq_or_snoc with ⟨-, rfl⟩ | ⟨p', m, hpeq, -, -⟩
    · cases fuel with
      | zero => omega
      | succ f =>
        unfold bf_reconstruct
        rw [if_neg (hacc u (List.mem_cons_self _ _))]
        rw [hu]
        cases f <;> rfl
    · exact absurd hpeq (by simp)
  | succ n ih =>
    intro p u v hlen hseg hu acc fuel hfuel hnd hacc
    rcases hseg.eq_or_snoc with ⟨rfl, rfl⟩ | ⟨p', m, rfl, hseg', hv⟩
    · cases fuel with
      | zero => omega
      | succ f =>
        unfold bf_reconstruct
        rw [if_neg (hacc u (List.mem_cons_self _ _))]
        rw [hu]
        cases f <;> rfl
    · cases fuel with
      | zero => simp at hfuel
      | succ f =>
        have hvp : v ∉ u :: p' := by
          have h1 : (u :: (p' ++ [v])).Nodup := hnd
          rw [← List.cons_append, List.nodup_append] at h1
          intro hc
          exact h1.2.2 hc (List.mem_singleton.mpr rfl)
        unfold bf_reconstruct
        rw [if_neg (hacc v (by simp)), hv]
        have := ih (show p'.length ≤ n by simp at hlen; omega) hseg' hu (v :: acc) f
          (by simp at hfuel ⊢; omega)
          (by
            have h1 : (u :: (p' ++ [v])).Nodup := hnd
            rw [← List.cons_append, List.nodup_append] at h1
            exact h1.1)
          (by
            intro x hx hmem
            rcases List.mem_cons.mp hmem with rfl | hmem
            · exact hvp hx
            · exact hacc x (by
                rcases List.mem_cons.mp hx with rfl | hx
                · exact List.mem_cons_self _ _
                · exact List.mem_cons_of_mem _ (List.mem_append_left _ hx)) hmem)
        rw [this]
        simp

theorem bf_finish_cons_inf {start d : String} {minC : String → ECost}
    {pred : String → Option String} {fuel : Nat} {rest : List String}
    {table : String → Option String × ECost} (h : minC d = ECost.inf) :
    bf_finish start minC pred fuel (d :: rest) table =
    bf_finish start minC pred fuel rest table := by
  conv_lhs => unfold bf_finish
  rw [h]

theorem bf_finish_cons_fin {start d : String} {minC : String → ECost}
    {pred : String → Option String} {fuel : Nat} {rest : List String}
    {table : String → Option String × ECost} {c : Int} (h : minC d = ECost.fin c) :
    bf_finish start minC pred fuel (d :: rest) table =
    if (bf_reconstruct pred fuel (some d) []).head? = some start then
      ((d, bf_reconstruct pred fuel (some d) []) ::
        (bf_finish start minC pred fuel rest
          (Function.update table d
            (some (match bf_reconstruct pred fuel (some d) [] with
                   | _ :: second :: _ => second
                   | _ => d), ECost.fin c))).1,
       (bf_finish start minC pred fuel rest
         (Function.update table d
           (some (match bf_reconstruct pred fuel (some d) [] with
                  | _ :: second :: _ => second
                  | _ => d), ECost.fin c))).2)
    else if d = start then
      ((start, [start]) ::
        (bf_finish start minC pred fuel rest
          (Function.update table start (some start, ECost.fin 0))).1,
       (bf_finish start minC pred fuel rest
         (Function.update table start (some start, ECost.fin 0))).2)
    else bf_finish start minC pred fuel rest table := by
  conv_lhs => unfold bf_finish
  rw [h]

theorem bf_finish_frame {start : String} {minC : String → ECost}
    {pred : String → Option String} {fuel : Nat} :
    ∀ (names : List String) (table : String → Option String × ECost) (v : String),
    v ∉ names →
    (bf_finish start minC pred fuel names table).2 v = table v ∧
    dlookup v (bf_finish start minC pred fuel names table).1 = none := by
  intro names
  induction names with
  | nil => exact fun table v _ => ⟨rfl, rfl⟩
  | cons d rest ih =>
    intro table v hv
    have hvd : v ≠ d := fun hc => hv (hc ▸ List.mem_cons_self _ _)
    have hvr : v ∉ rest := fun hc => hv (List.mem_cons_of_mem _ hc)
    cases hmd : minC d with
    | inf =>
      rw [bf_finish_cons_inf hmd]
      exact ih table v hvr
    | fin c =>
      rw [bf_finish_cons_fin hmd]
      by_cases hhead : (bf_reconstruct pred fuel (some d) []).head? = some start
      · rw [if_pos hhead]
        refine ⟨(ih _ v hvr).1.trans (Function.update_noteq hvd _ _), ?_⟩
        rw [dlookup_cons, if_neg (fun hc => hvd hc.symm)]
        exact (ih _ v hvr).2
      · rw [if_neg hhead]
        by_cases hds : d = start
        · rw [if_pos hds]
          refine ⟨(ih _ v hvr).1.trans
            (Function.update_noteq (fun hc => hvd (hc.trans hds.symm)) _ _), ?_⟩
          rw [dlookup_cons, if_neg (fun hc => hvd (hc.symm.trans hds.symm))]
          exact (ih _ v hvr).2
        · rw [if_neg hds]
          exact ih table v hvr

theorem bf_finish_spec {start : String} {minC : String → ECost}
    {pred : String → Option String} {fuel : Nat}
    (hrec : ∀ v cv, minC v = ECost.fin cv →
      ∃ p, bf_reconstruct pred fuel (some v) [] = start :: p ∧
        (p = [] → v = start)) :
    ∀ (names : List String) (table : String → Option String × ECost) (v : String),
    v ∈ names → names.Nodup →
    (∀ cv, minC v = ECost.fin cv →
      dlookup v (bf_finish start minC pred fuel names table).1 =
        some (bf_reconstruct pred fuel (some v) []) ∧
      (bf_finish start minC pred fuel names table).2 v =
        (some (next_hop_of start (bf_reconstruct pred fuel (some v) [])),
          ECost.fin cv)) ∧
    (minC v = ECost.inf →
      dlookup v (bf_finish start minC pred fuel names table).1 = none ∧
      (bf_finish start minC pred fuel names table).2 v = table v) := by
  intro names
  induction names with
  | nil =>
    intro table v hv
    simp at hv
  | cons d rest ih =>
    intro table v hv hnd
    have hdr : d ∉ rest := (List.nodup_cons.mp hnd).1
    have hndr : rest.Nodup := (List.nodup_cons.mp hnd).2
    by_cases hvd : v = d
    · subst hvd
      constructor
      · intro cv hcv
        obtain ⟨p, hp, hpnil⟩ := hrec v cv hcv
        rw [bf_finish_cons_fin hcv, hp]
        rw [if_pos (by rw [List.head?_cons])]
        constructor
        · rw [dlookup_cons, if_pos rfl]
        · dsimp only
          rw [(bf_finish_frame rest _ v hdr).1, Function.update_same]
          cases p with
          | nil =>
            have := hpnil rfl
            subst this
            rfl
          | cons second q => rfl
      · intro hcv
        rw [bf_finish_cons_inf hcv]
        exact ⟨(bf_finish_frame rest table v hdr).2,
          (bf_finish_frame rest table v hdr).1⟩
    · have hvr : v ∈ rest := by
        rcases List.mem_cons.mp hv with rfl | hvr
        · exact absurd rfl hvd
        · exact hvr
      cases hmd : minC d with
      | inf =>
        rw [bf_finish_cons_inf hmd]
        exact ih table v hvr hndr
      | fin c =>
        rw [bf_finish_cons_fin hmd]
        by_cases hhead : (bf_reconstruct pred fuel (some d) []).head? = some start
        · rw [if_pos hhead]
          refine ⟨fun cv hcv => ?_, fun hcv => ?_⟩
          · obtain ⟨h1, h2⟩ := (ih _ v hvr hndr).1 cv hcv
            refine ⟨?_, h2⟩
            rw [dlookup_cons, if_neg (fun hc => hvd hc.symm)]
            exact h1
          · obtain ⟨h1, h2⟩ := (ih _ v hvr hndr).2 hcv
            refine ⟨?_, ?_⟩
            · rw [dlookup_cons, if_neg (fun hc => hvd hc.symm)]
              exact h1
            · rw [h2, Function.update_noteq hvd]
        · rw [if_neg hhead]
          by_cases hds : d = start
          · rw [if_pos hds]
            refine ⟨fun cv hcv => ?_, fun hcv => ?_⟩
            · obtain ⟨h1, h2⟩ := (ih _ v hvr hndr).1 cv hcv
              refine ⟨?_, h2⟩
              rw [dlookup_cons, if_neg (fun hc => hvd (hc.symm.trans hds.symm))]
              exact h1
            · obtain ⟨h1, h2⟩ := (ih _ v hvr hndr).2 hcv
              refine ⟨?_, ?_⟩
              · rw [dlookup_cons, if_neg (fun hc => hvd (hc.symm.trans hds.symm))]
                exact h1
              · rw [h2, Function.update_noteq (fun hc => hvd (hc.trans hds.symm))]
          · rw [if_neg hds]
            exact ih table v hvr hndr

theorem bellman_ford_min_paths {net : Network} {start : String} (hwf : NetWf net)
    (hneg : has_negative_edges net = false)
    (hstart : (dlookup start net.routers).isSome) :
    ∃ mb, (bellman_ford start net).1 = some mb ∧
      ∀ v, ReachableFrom net start v →
        ∃ c pb, IsMinCost net start v c ∧ dlookup v mb = some pb ∧
          Walk net start v pb c := by
  have hsnone : ¬ (dlookup start net.routers).isNone := by
    simp only [Option.isNone_iff_eq_none]
    intro hc
    rw [hc] at hstart
    simp at hstart
  have hsmem : start ∈ dkeys net.routers := (dlookup_isSome_iff _ _).mp hstart
  have hinv : BFInv net start (bf_passes (network_edges net)
      ((dkeys net.routers).length - 1) (bf_init start)) :=
    bfinv_passes hwf hneg _ _ (bfinv_init net start)
  have hstart0 : (bf_passes (network_edges net)
      ((dkeys net.routers).length - 1) (bf_init start)).1 start = ECost.fin 0 := by
    have hle := hinv.start_le
    cases h : (bf_passes (network_edges net)
        ((dkeys net.routers).length - 1) (bf_init start)).1 start with
    | inf =>
      rw [h] at hle
      exact absurd hle (by simp)
    | fin cs =>
      rw [h] at hle
      obtain ⟨p, hp⟩ := hinv.sound start cs h
      have hnn := walk_cost_nonneg hneg hp
      simp only [ECost.fin_le_fin] at hle
      have : cs = 0 := by omega
      rw [this]
  have hdet : bf_detect (network_edges net) (bf_passes (network_edges net)
      ((dkeys net.routers).length - 1) (bf_init start)).1 = false := by
    by_contra h
    rw [Bool.not_eq_false] at h
    exact no_neg_no_cycle hneg start (bf_cycle_of_detect_true hwf hsmem h)
  have hrec : ∀ v cv, (bf_passes (network_edges net)
      ((dkeys net.routers).length - 1) (bf_init start)).1 v = ECost.fin cv →
      ∃ p, bf_reconstruct (bf_passes (network_edges net)
          ((dkeys net.routers).length - 1) (bf_init start)).2
          ((dkeys net.routers).length + 1) (some v) [] = start :: p ∧
        (p = [] → v = start) ∧
        PredSeg (bf_passes (network_edges net)
          ((dkeys net.routers).length - 1) (bf_init start)).2 start v p := by
    intro v cv hcv
    obtain ⟨p, hseg, hnd⟩ := hinv.chain v cv hcv
    have hsub : ∀ z ∈ start :: p, z ∈ dkeys net.routers := by
      intro z hz
      rcases List.mem_cons.mp hz with rfl | hz
      · exact hsmem
      · obtain ⟨cx, hcx, -, helem⟩ := predSeg_bounds hneg hinv.pred_edge hseg cv hcv
        obtain ⟨cz, hcz, -, -⟩ := helem z hz
        obtain ⟨pz, hpz⟩ := hinv.sound z cz hcz
        exact hpz.subset hwf hsmem z (List.mem_of_getLast?_eq_some hpz.last_eq)
    have hplen : p.length + 1 ≤ (dkeys net.routers).length := by
      have := (hnd.subperm hsub).length_le
      simpa using this
    refine ⟨p, ?_, ?_, hseg⟩
    · have := bf_reconstruct_seg p.length (le_refl _) hseg hinv.pred_start []
        ((dkeys net.routers).length + 1) (by omega) hnd (by simp)
      simpa using this
    · intro hp0
      subst hp0
      rcases hseg.eq_or_snoc with ⟨-, h⟩ | ⟨p', m, habs, -, -⟩
      · exact h.symm
      · exact absurd habs (by simp)
  unfold bellman_ford
  rw [if_neg hsnone]
  dsimp only
  rw [if_neg (by rw [hdet]; exact Bool.false_ne_true)]
  dsimp only
  refine ⟨_, rfl, ?_⟩
  intro v hrch
  obtain ⟨cv, hcv, hmin⟩ := bf_minC_is_min hwf hneg hsmem hrch
  unfold bf_minC at hcv
  obtain ⟨p, hp, hpnil, hseg⟩ := hrec v cv hcv
  have hvmem : v ∈ dkeys net.routers := by
    obtain ⟨q, c0, hw⟩ := hrch
    exact hw.subset hwf hsmem v (List.mem_of_getLast?_eq_some hw.last_eq)
  obtain ⟨hlook, -⟩ := (bf_finish_spec
    (fun v cv h => (hrec v cv h).imp (fun p hp => ⟨hp.1, hp.2.1⟩))
    (dkeys net.routers) _ v hvmem hwf.routers_nodup).1 cv hcv
  rw [hp] at hlook
  obtain ⟨cw, hwalk, hcwle⟩ := predSeg_walk hinv.pred_edge hseg 0 cv hstart0 hcv
  have hcweq : cw = cv := by
    have := hmin.2 _ _ hwalk
    omega
  rw [hcweq] at hwalk
  exact ⟨cv, start :: p, hmin, hlook, hwalk⟩

theorem dijkstra_min_paths {net : Network} {start : String} (hwf : NetWf net)
    (hneg : has_negative_edges net = false)
    (hstart : (dlookup start net.routers).isSome) :
    ∃ md, (dijkstra start net).1 = some md ∧
      ∀ v, ReachableFrom net start v →
        ∃ c pd, IsMinCost net start v c ∧ dlookup v md = some pd ∧
          Walk net start v pd c := by
  have hsnone : ¬ (dlookup start net.routers).isNone := by
    simp only [Option.isNone_iff_eq_none]
    intro hc
    rw [hc] at hstart
    simp at hstart
  have hsmem : start ∈ dkeys net.routers := (dlookup_isSome_iff _ _).mp hstart
  unfold dijkstra
  rw [if_neg hsnone, if_neg (by rw [hneg]; exact Bool.false_ne_true)]
  dsimp only
  obtain ⟨minC', inv⟩ := dijkstra_loop_spec hwf hneg
    ((dkeys net.routers).length * (adj_size net + 1) + 1) [(0, start, [])]
    (fun r => if r = start then ECost.fin 0 else ECost.inf) (fun _ => [])
    (fun r => if r = start then (some start, ECost.fin 0) else (none, ECost.inf))
    (dinv_init hsmem)
    (by simp [d_phi, List.countP_true])
  obtain ⟨hst, hreachS, hsettled, hunset⟩ := dinv_final hneg inv
  refine ⟨_, rfl, ?_⟩
  intro v hr
  have hvmem : v ∈ dkeys net.routers := by
    obtain ⟨q, c0, hw⟩ := hr
    exact hw.subset hwf hsmem v (List.mem_of_getLast?_eq_some hw.last_eq)
  obtain ⟨c, hw, hmc, -⟩ := hsettled v (hreachS v hr)
  exact ⟨c, _, hmc, dlookup_map_pair _ hvmem, hw⟩

/-- C4: on every graph without negative edges and for every existing
source, dijkstra and bellman_ford agree on the (minimum) cost of every
reachable destination, and each returns some walk of exactly that minimum
cost for it. -/
theorem C4_algorithms_agree :
    ∀ (net : Network) (start : String), NetWf net →
    has_negative_edges net = false → (dlookup start net.routers).isSome →
    ∃ md mb, (dijkstra start net).1 = some md ∧
      (bellman_ford start net).1 = some mb ∧
      ∀ v, ReachableFrom net start v →
        ∃ c, IsMinCost net start v c ∧
          (∃ pd, dlookup v md = some pd ∧ Walk net start v pd c) ∧
          (∃ pb, dlookup v mb = some pb ∧ Walk net start v pb c) := by
  intro net start hwf hneg hstart
  obtain ⟨md, hmd, hd⟩ := dijkstra_min_paths hwf hneg hstart
  obtain ⟨mb, hmb, hb⟩ := bellman_ford_min_paths hwf hneg hstart
  refine ⟨md, mb, hmd, hmb, ?_⟩
  intro v hr
  obtain ⟨c, pd, hc, h1, h2⟩ := hd v hr
  obtain ⟨c', pb, hc', h1', h2'⟩ := hb v hr
  have hcc : c' = c := isMinCost_unique hc' hc
  subst hcc
  exact ⟨c', hc, ⟨pd, h1, h2⟩, ⟨pb, h1', h2'⟩⟩

theorem C4_algorithms_agree_witness :
    (NetWf netScen ∧ has_negative_edges netScen = false ∧
      (dlookup "A" netScen.routers).isSome) ∧
    (∃ md mb, (dijkstra "A" netScen).1 = some md ∧
      (bellman_ford "A" netScen).1 = some mb ∧
      ∀ v, ReachableFrom netScen "A" v →
        ∃ c, IsMinCost netScen "A" v c ∧
          (∃ pd, dlookup v md = some pd ∧ Walk netScen "A" v pd c) ∧
          (∃ pb, dlookup v mb = some pb ∧ Walk netScen "A" v pb c)) :=
  ⟨⟨wf_reachable netScen_reachable, by decide, by decide⟩,
    C4_algorithms_agree netScen "A" (wf_reachable netScen_reachable)
      (by decide) (by decide)⟩
